import Mathlib

/-!
Formal model of the btc-wallet SPV node core, shallowly embedded from the
Rust sources, and verification of properties of its header codec,
proof-of-work validation, wallet-record codec and per-peer stream loop.

Bytes are modelled as natural numbers (with explicit bounds where needed),
buffers as lists of bytes, and fallible Rust code as `Except`-valued
functions.  A Rust `panic` (an `unwrap` of `None` or an arithmetic
underflow) is modelled as `Option.none` on the affected functions.
-/

namespace BtcWallet

/-! ## SHA-256

The block-header identity in the source is `sha256d::Hash::hash` from the
external `bitcoin_hashes` crate: double SHA-256 of the 80-byte header
serialization.  We embed SHA-256 (FIPS 180-4) directly so that
proof-of-work facts about concrete headers can be checked by evaluation. -/

/-- Right rotation of a 32-bit word. -/
def rotr32 (n x : Nat) : Nat := ((x >>> n) ||| (x <<< (32 - n))) % 4294967296

/-- SHA-256 small sigma 0. -/
def ssig0 (x : Nat) : Nat := (rotr32 7 x) ^^^ (rotr32 18 x) ^^^ (x >>> 3)

/-- SHA-256 small sigma 1. -/
def ssig1 (x : Nat) : Nat := (rotr32 17 x) ^^^ (rotr32 19 x) ^^^ (x >>> 10)

/-- SHA-256 big sigma 0. -/
def bsig0 (x : Nat) : Nat := (rotr32 2 x) ^^^ (rotr32 13 x) ^^^ (rotr32 22 x)

/-- SHA-256 big sigma 1. -/
def bsig1 (x : Nat) : Nat := (rotr32 6 x) ^^^ (rotr32 11 x) ^^^ (rotr32 25 x)

/-- SHA-256 choice function. -/
def ch (x y z : Nat) : Nat := (x &&& y) ^^^ ((x ^^^ 4294967295) &&& z)

/-- SHA-256 majority function. -/
def maj (x y z : Nat) : Nat := (x &&& y) ^^^ (x &&& z) ^^^ (y &&& z)

/-- SHA-256 round constants. -/
def K256 : List Nat :=
  [1116352408, 1899447441, 3049323471, 3921009573, 961987163, 1508970993,
   2453635748, 2870763221, 3624381080, 310598401, 607225278, 1426881987,
   1925078388, 2162078206, 2614888103, 3248222580, 3835390401, 4022224774,
   264347078, 604807628, 770255983, 1249150122, 1555081692, 1996064986,
   2554220882, 2821834349, 2952996808, 3210313671, 3336571891, 3584528711,
   113926993, 338241895, 666307205, 773529912, 1294757372, 1396182291,
   1695183700, 1986661051, 2177026350, 2456956037, 2730485921, 2820302411,
   3259730800, 3345764771, 3516065817, 3600352804, 4094571909, 275423344,
   430227734, 506948616, 659060556, 883997877, 958139571, 1322822218,
   1537002063, 1747873779, 1955562222, 2024104815, 2227730452, 2361852424,
   2428436474, 2756734187, 3204031479, 3329325298]

/-- SHA-256 compression state: eight 32-bit working variables. -/
structure Hash8 where
  a : Nat
  b : Nat
  c : Nat
  d : Nat
  e : Nat
  f : Nat
  g : Nat
  h : Nat
deriving DecidableEq

/-- Initial SHA-256 hash value. -/
def H0 : Hash8 :=
  ⟨1779033703, 3144134277, 1013904242, 2773480762,
   1359893119, 2600822924, 528734635, 1541459225⟩

/-- One SHA-256 round: mix in one schedule word already summed with its constant. -/
def round256 (st : Hash8) (kw : Nat) : Hash8 :=
  let t1 := (st.h + bsig1 st.e + ch st.e st.f st.g + kw) % 4294967296
  let t2 := (bsig0 st.a + maj st.a st.b st.c) % 4294967296
  ⟨(t1 + t2) % 4294967296, st.a, st.b, st.c, (st.d + t1) % 4294967296, st.e, st.f, st.g⟩

/-- Group a list of bytes into 32-bit big-endian words. -/
def beWords : List Nat → List Nat
  | b0 :: b1 :: b2 :: b3 :: rest => (b0 * 16777216 + b1 * 65536 + b2 * 256 + b3) :: beWords rest
  | _ => []

/-- Extend the 16-word block to the 64-word message schedule.
The accumulator keeps the schedule in reverse order, most recent word first. -/
def extendWords : Nat → List Nat → List Nat
  | 0, ws => ws
  | k + 1, ws =>
    let w2 := ws.getD 1 0
    let w7 := ws.getD 6 0
    let w15 := ws.getD 14 0
    let w16 := ws.getD 15 0
    extendWords k (((ssig1 w2 + w7 + ssig0 w15 + w16) % 4294967296) :: ws)

/-- The 64-word message schedule of one 64-byte block. -/
def schedule (block : List Nat) : List Nat :=
  (extendWords 48 (beWords block).reverse).reverse

/-- Compress one 64-byte block into the running hash state. -/
def compress (st : Hash8) (block : List Nat) : Hash8 :=
  let ks := (schedule block).zipWith (fun w k => (w + k) % 4294967296) K256
  let e := ks.foldl round256 st
  ⟨(e.a + st.a) % 4294967296, (e.b + st.b) % 4294967296, (e.c + st.c) % 4294967296,
   (e.d + st.d) % 4294967296, (e.e + st.e) % 4294967296, (e.f + st.f) % 4294967296,
   (e.g + st.g) % 4294967296, (e.h + st.h) % 4294967296⟩

/-- Big-endian bytes of a 64-bit value. -/
def beBytes8 (n : Nat) : List Nat :=
  [n / 2 ^ 56 % 256, n / 2 ^ 48 % 256, n / 2 ^ 40 % 256, n / 2 ^ 32 % 256,
   n / 2 ^ 24 % 256, n / 2 ^ 16 % 256, n / 2 ^ 8 % 256, n % 256]

/-- SHA-256 padding: append 0x80, zeros, and the 64-bit bit length. -/
def pad256 (msg : List Nat) : List Nat :=
  let l := msg.length
  let zeros := (119 - l % 64) % 64
  msg ++ 0x80 :: List.replicate zeros 0 ++ beBytes8 (l * 8)

/-- Process a padded message, 64 bytes at a time.  The fuel argument is
structural so that concrete digests evaluate by reduction; one unit of
fuel covers at least one 64-byte block, so fuel equal to the byte count
never runs out (the fuel-exhausted case returns the state unchanged and
is unreachable from `processBlocks`). -/
def processBlocksGo : Nat → Hash8 → List Nat → Hash8
  | _, st, [] => st
  | 0, st, _ :: _ => st
  | fuel + 1, st, b :: rest =>
    processBlocksGo fuel (compress st ((b :: rest).take 64)) ((b :: rest).drop 64)

/-- Process a padded message, 64 bytes at a time. -/
def processBlocks (st : Hash8) (bytes : List Nat) : Hash8 :=
  processBlocksGo bytes.length st bytes

/-- Big-endian bytes of a 32-bit word. -/
def beBytes4 (n : Nat) : List Nat :=
  [n / 16777216 % 256, n / 65536 % 256, n / 256 % 256, n % 256]

/-- The 32 digest bytes of a final state. -/
def digest (st : Hash8) : List Nat :=
  beBytes4 st.a ++ beBytes4 st.b ++ beBytes4 st.c ++ beBytes4 st.d ++
  beBytes4 st.e ++ beBytes4 st.f ++ beBytes4 st.g ++ beBytes4 st.h

/-- SHA-256 of a byte list. -/
def sha256 (msg : List Nat) : List Nat :=
  digest (processBlocks H0 (pad256 msg))

/-- Double SHA-256: the hash used by `bitcoin_hashes::sha256d`, which the
source applies to the 80-byte header serialization. -/
def sha256d (msg : List Nat) : List Nat := sha256 (sha256 msg)

/-- A SHA-256 digest is 32 bytes. -/
theorem sha256_length (msg : List Nat) : (sha256 msg).length = 32 := by
  simp [sha256, digest, beBytes4]

/-- Digest bytes are bytes. -/
theorem sha256_bytes_lt {msg : List Nat} : ∀ b ∈ sha256 msg, b < 256 := by
  intro b hb
  simp only [sha256, digest, beBytes4, List.mem_append, List.mem_cons,
    List.not_mem_nil, or_false] at hb
  omega

/-- A double-SHA-256 digest is 32 bytes. -/
theorem sha256d_length (msg : List Nat) : (sha256d msg).length = 32 :=
  sha256_length _

/-- Double-SHA-256 digest bytes are bytes. -/
theorem sha256d_bytes_lt {msg : List Nat} : ∀ b ∈ sha256d msg, b < 256 :=
  sha256_bytes_lt

/-! ## Errors and the byte cursor

Modelled from the spec: the error taxonomy (spec section 7) and the
`BufferParser` cursor (spec section 4.1) live in repository files outside
the provided sources (`src/error.rs`, `src/parser.rs`); only their callers
are available.  The cursor is embedded as functions that consume a byte
list and return the extracted value together with the unconsumed tail. -/

/-- Modelled from the spec: the error taxonomy of spec section 7
(`src/error.rs` is not among the provided sources).  The I/O variant is
named `IoErr` here. -/
inductive CustomError where
  | SerializedBufferIsInvalid
  | HeaderInvalidPoW
  | InvalidMerkleRoot
  | IoErr
  | ChannelClosed
  | LockPoisoned
deriving DecidableEq

deriving instance DecidableEq for Except

/-- Little-endian bytes of a 32-bit value, as `u32::to_le_bytes`. -/
def leBytes4 (n : Nat) : List Nat :=
  [n % 256, n / 256 % 256, n / 65536 % 256, n / 16777216 % 256]

/-- Little-endian bytes of a 64-bit value, as `u64::to_le_bytes`. -/
def leBytes8 (n : Nat) : List Nat :=
  [n % 256, n / 2 ^ 8 % 256, n / 2 ^ 16 % 256, n / 2 ^ 24 % 256,
   n / 2 ^ 32 % 256, n / 2 ^ 40 % 256, n / 2 ^ 48 % 256, n / 2 ^ 56 % 256]

/-- The value of a byte list read as a little-endian integer. -/
def leVal : List Nat → Nat
  | [] => 0
  | b :: rest => b + 256 * leVal rest

/-- Modelled from the spec: `BufferParser::extract_buffer(n)` returns the
next n bytes as an owned slice and advances the cursor, failing with
`SerializedBufferIsInvalid` if fewer than n bytes remain. -/
def extractBuffer (n : Nat) (buf : List Nat) : Except CustomError (List Nat × List Nat) :=
  if n ≤ buf.length then .ok (buf.take n, buf.drop n)
  else .error .SerializedBufferIsInvalid

/-- Modelled from the spec: `BufferParser::extract_u8`. -/
def extractU8 (buf : List Nat) : Except CustomError (Nat × List Nat) :=
  match buf with
  | [] => .error .SerializedBufferIsInvalid
  | b :: rest => .ok (b, rest)

/-- Modelled from the spec: `BufferParser::extract_u32` reads four bytes
little-endian. -/
def extractU32 (buf : List Nat) : Except CustomError (Nat × List Nat) :=
  if 4 ≤ buf.length then .ok (leVal (buf.take 4), buf.drop 4)
  else .error .SerializedBufferIsInvalid

/-- Modelled from the spec: `BufferParser::extract_i32` reads four bytes
little-endian.  The value is kept as the 32-bit pattern, which is all the
header codec and the hash depend on. -/
def extractI32 (buf : List Nat) : Except CustomError (Nat × List Nat) :=
  extractU32 buf

/-- Modelled from the spec: `BufferParser::extract_string(n)` extracts n
bytes and decodes them as UTF-8.  Strings are modelled as their UTF-8 byte
lists, so the decoding step is the identity; decoding bytes that were
produced by serializing a Rust `String` always succeeds. -/
def extractString (n : Nat) (buf : List Nat) : Except CustomError (List Nat × List Nat) :=
  extractBuffer n buf

/-- Modelled from the spec: `BufferParser::extract_varint` decodes Bitcoin
CompactSize: a first byte of 0xFD, 0xFE or 0xFF announces a 2-, 4- or
8-byte little-endian follow-on; any other first byte is the value. -/
def extractVarint (buf : List Nat) : Except CustomError (Nat × List Nat) :=
  match buf with
  | [] => .error .SerializedBufferIsInvalid
  | b :: rest =>
    if b < 253 then .ok (b, rest)
    else if b = 253 then
      if 2 ≤ rest.length then .ok (leVal (rest.take 2), rest.drop 2)
      else .error .SerializedBufferIsInvalid
    else if b = 254 then
      if 4 ≤ rest.length then .ok (leVal (rest.take 4), rest.drop 4)
      else .error .SerializedBufferIsInvalid
    else
      if 8 ≤ rest.length then .ok (leVal (rest.take 8), rest.drop 8)
      else .error .SerializedBufferIsInvalid

/-- Modelled from the spec: `VarIntSerialize::to_varint_bytes`, the encoder
side of the CompactSize rule. -/
def toVarintBytes (n : Nat) : List Nat :=
  if n < 253 then [n]
  else if n < 65536 then 253 :: [n % 256, n / 256 % 256]
  else if n < 4294967296 then 254 :: leBytes4 n
  else 255 :: leBytes8 n

/-! ## BlockHeader: codec and proof-of-work validation

Embedded from `src/messages/headers.rs`. -/

/-- A Bitcoin block header, as the `BlockHeader` struct of
`src/messages/headers.rs`.  The `version` field is the 32-bit pattern of
the Rust `i32`; the fixed-width fields carry their `u32` values. -/
structure BlockHeader where
  version : Nat
  prev_block_hash : List Nat
  merkle_root : List Nat
  timestamp : Nat
  bits : Nat
  nonce : Nat
deriving DecidableEq

/-- BlockHeader::serialize: version, previous-block hash, merkle root,
timestamp, bits and nonce, integers little-endian. -/
def BlockHeader.serialize (h : BlockHeader) : List Nat :=
  leBytes4 h.version ++ h.prev_block_hash ++ h.merkle_root ++
    leBytes4 h.timestamp ++ leBytes4 h.bits ++ leBytes4 h.nonce

/-- BlockHeader::hash: double SHA-256 of the serialization. -/
def BlockHeader.hash (h : BlockHeader) : List Nat :=
  sha256d h.serialize

/-- Rust slice lookup `l.get(a..b)`: the subslice when `a ≤ b ≤ l.len()`,
otherwise `none`. -/
def sliceGet (l : List Nat) (a b : Nat) : Option (List Nat) :=
  if a ≤ b ∧ b ≤ l.length then some ((l.drop a).take (b - a)) else none

/-- The byte-by-byte comparison loop of `BlockHeader::validate`: walk the
two lists in step; the first position where they differ decides by a
strict byte comparison; running out of positions (all equal) yields
`false`. -/
def lexLess : List Nat → List Nat → Bool
  | a :: as, b :: bs => if a ≠ b then decide (a < b) else lexLess as bs
  | _, _ => false

/-- The body of `BlockHeader::validate` after the hash is computed, as a
function of the hash bytes and the `bits` field.  A `none` result models a
panic: the source unwraps both slice lookups, and `leading_zeros_start - 3`
underflows `usize` when the exponent byte is below 3 (so the second lookup
panics, in release mode via a wrapped start index). -/
def validateWith (hash : List Nat) (bits : Nat) : Option Bool :=
  let bits_vec := beBytes4 bits
  let leading_zeros_start := bits_vec.headD 0
  match sliceGet hash leading_zeros_start 32 with
  | none => none
  | some leading_zeros =>
    if leading_zeros.any (fun z => z ≠ 0) then some false
    else if leading_zeros_start < 3 then none
    else
      match sliceGet hash (leading_zeros_start - 3) leading_zeros_start with
      | none => none
      | some significants =>
        some (lexLess significants.reverse (bits_vec.drop 1))

/-- BlockHeader::validate: compare the double-SHA-256 of the header against
the compact target in `bits`.  `none` models a panic. -/
def BlockHeader.validate (h : BlockHeader) : Option Bool :=
  validateWith h.hash h.bits

/-- BlockHeader::parse: reject buffers shorter than 80 bytes, extract the
six fields, and when `doValidate` is set run the proof-of-work check,
turning a failed check into `HeaderInvalidPoW`.  The outer `none` models a
panic inside `validate`. -/
def BlockHeader.parse (buffer : List Nat) (doValidate : Bool) :
    Option (Except CustomError BlockHeader) :=
  if buffer.length < 80 then some (.error .SerializedBufferIsInvalid)
  else
    match extractI32 buffer with
    | .error e => some (.error e)
    | .ok (version, r1) =>
    match extractBuffer 32 r1 with
    | .error e => some (.error e)
    | .ok (prev, r2) =>
    match extractBuffer 32 r2 with
    | .error e => some (.error e)
    | .ok (merkle, r3) =>
    match extractU32 r3 with
    | .error e => some (.error e)
    | .ok (timestamp, r4) =>
    match extractU32 r4 with
    | .error e => some (.error e)
    | .ok (bits, r5) =>
    match extractU32 r5 with
    | .error e => some (.error e)
    | .ok (nonce, _) =>
      let block_header : BlockHeader := ⟨version, prev, merkle, timestamp, bits, nonce⟩
      if doValidate then
        match block_header.validate with
        | none => none
        | some true => some (.ok block_header)
        | some false => some (.error .HeaderInvalidPoW)
      else some (.ok block_header)

/-! ## Headers message

Embedded from `impl Message for Headers` in `src/messages/headers.rs`. -/

/-- The per-header part of `Headers::serialize`: each header is its 80
bytes followed by a single zero byte. -/
def serializeRecords : List BlockHeader → List Nat
  | [] => []
  | h :: rest => h.serialize ++ [0] ++ serializeRecords rest

/-- Headers::serialize: the varint count, then each header followed by a
zero byte. -/
def headersSerialize (headers : List BlockHeader) : List Nat :=
  toVarintBytes headers.length ++ serializeRecords headers

/-- The record loop of `Headers::parse`: while at least 81 bytes remain,
extract an 81-byte record and parse it with proof-of-work validation on.
The first failure aborts; a `none` result models a panic inside
`validate`. -/
def parseRecords (rest : List Nat) : Option (Except CustomError (List BlockHeader)) :=
  if rest.length < 81 then some (.ok [])
  else
    match BlockHeader.parse (rest.take 81) true with
    | none => none
    | some (.error e) => some (.error e)
    | some (.ok h) =>
      match parseRecords (rest.drop 81) with
      | none => none
      | some (.error e) => some (.error e)
      | some (.ok tl) => some (.ok (h :: tl))
  termination_by rest.length
  decreasing_by
    simp only [List.length_drop]
    omega

/-- Headers::parse: read the varint count (its value is never used), fail
with `SerializedBufferIsInvalid` unless the remainder is a multiple of 81,
then run the record loop. -/
def headersParse (buffer : List Nat) : Option (Except CustomError (List BlockHeader)) :=
  match extractVarint buffer with
  | .error e => some (.error e)
  | .ok (_, rest) =>
    if rest.length % 81 ≠ 0 then some (.error .SerializedBufferIsInvalid)
    else parseRecords rest

/-! ## Wallet record codec

Embedded from `src/wallet.rs`.  The three `String` fields are modelled as
their UTF-8 byte lists. -/

/-- A wallet, as the `Wallet` struct of `src/wallet.rs`: a name, a public
key and a private key, each a `String` modelled by its UTF-8 bytes. -/
structure Wallet where
  name : List Nat
  pubkey : List Nat
  privkey : List Nat
deriving DecidableEq

/-- Wallet::serialize: three length-prefixed byte strings.  Each length is
`str.len() as u8`, which truncates the byte length modulo 256. -/
def Wallet.serialize (w : Wallet) : List Nat :=
  w.name.length % 256 :: w.name ++
    (w.pubkey.length % 256 :: w.pubkey ++
      (w.privkey.length % 256 :: w.privkey))

/-- One iteration of the `Wallet::parse_wallets` loop: a `u8` length and
that many bytes, three times. -/
def parseWalletRecord (buf : List Nat) : Except CustomError (Wallet × List Nat) :=
  match extractU8 buf with
  | .error e => .error e
  | .ok (name_len, r1) =>
  match extractString name_len r1 with
  | .error e => .error e
  | .ok (name, r2) =>
  match extractU8 r2 with
  | .error e => .error e
  | .ok (pubkey_len, r3) =>
  match extractString pubkey_len r3 with
  | .error e => .error e
  | .ok (pubkey, r4) =>
  match extractU8 r4 with
  | .error e => .error e
  | .ok (privkey_len, r5) =>
  match extractString privkey_len r5 with
  | .error e => .error e
  | .ok (privkey, r6) => .ok (⟨name, pubkey, privkey⟩, r6)

/-- Extracting a string never grows the remainder. -/
theorem extractString_length {n : Nat} {l s r : List Nat}
    (h : extractString n l = .ok (s, r)) : r.length ≤ l.length := by
  unfold extractString extractBuffer at h
  split at h
  · cases h
    simp [List.length_drop]
  · cases h

/-- Extracting a byte shrinks the remainder by one. -/
theorem extractU8_length {l : List Nat} {v : Nat} {r : List Nat}
    (h : extractU8 l = .ok (v, r)) : r.length + 1 = l.length := by
  cases l with
  | nil => cases h
  | cons b rest =>
    cases h
    simp

/-- A successfully parsed record consumes at least its three length
bytes. -/
theorem parseWalletRecord_length {buf : List Nat} {w : Wallet} {r : List Nat}
    (h : parseWalletRecord buf = .ok (w, r)) : r.length < buf.length := by
  unfold parseWalletRecord at h
  cases h1 : extractU8 buf with
  | error e => simp only [h1] at h; exact Except.noConfusion h
  | ok p1 =>
    obtain ⟨name_len, r1⟩ := p1
    simp only [h1] at h
    cases h2 : extractString name_len r1 with
    | error e => simp only [h2] at h; exact Except.noConfusion h
    | ok p2 =>
      obtain ⟨name, r2⟩ := p2
      simp only [h2] at h
      cases h3 : extractU8 r2 with
      | error e => simp only [h3] at h; exact Except.noConfusion h
      | ok p3 =>
        obtain ⟨pubkey_len, r3⟩ := p3
        simp only [h3] at h
        cases h4 : extractString pubkey_len r3 with
        | error e => simp only [h4] at h; exact Except.noConfusion h
        | ok p4 =>
          obtain ⟨pubkey, r4⟩ := p4
          simp only [h4] at h
          cases h5 : extractU8 r4 with
          | error e => simp only [h5] at h; exact Except.noConfusion h
          | ok p5 =>
            obtain ⟨privkey_len, r5⟩ := p5
            simp only [h5] at h
            cases h6 : extractString privkey_len r5 with
            | error e => simp only [h6] at h; exact Except.noConfusion h
            | ok p6 =>
              obtain ⟨privkey, r6⟩ := p6
              simp only [h6, Except.ok.injEq, Prod.mk.injEq] at h
              obtain ⟨-, rfl⟩ := h
              have l1 := extractU8_length h1
              have l2 := extractString_length h2
              have l3 := extractU8_length h3
              have l4 := extractString_length h4
              have l5 := extractU8_length h5
              have l6 := extractString_length h6
              omega

/-- Wallet::parse_wallets: repeat the record parse while bytes remain. -/
def parseWallets (buf : List Nat) : Except CustomError (List Wallet) :=
  match buf with
  | [] => .ok []
  | b :: rest =>
    match hrec : parseWalletRecord (b :: rest) with
    | .error e => .error e
    | .ok (w, r) =>
      match parseWallets r with
      | .error e => .error e
      | .ok ws => .ok (w :: ws)
  termination_by buf.length
  decreasing_by
    exact parseWalletRecord_length hrec

/-! ## Per-peer stream loop

Embedded from `src/threads/peer_stream_loop.rs`.  The loop owns a TCP
stream and a sender half of the node-action channel; its effects are
modelled as an explicit trace.  The payload of each inbound message
arrives as the result of the corresponding `Message::read`
(`src/message.rs` is not among the provided sources): an `Except` value
covering both I/O and wire-codec failures, which is all the handlers
inspect. -/

/-- Modelled from the spec: inventory type tags (spec section 3).  Only
the block tag, named `GetBlock` at the call site in
`src/threads/peer_stream_loop.rs`, is exercised here. -/
inductive InventoryType where
  | GetBlock
  | GetTx
deriving DecidableEq

/-- Modelled from the spec: an inventory entry is a type tag and a 32-byte
hash. -/
structure Inventory where
  invType : InventoryType
  hash : List Nat
deriving DecidableEq

/-- Modelled from the spec: a block is its header plus transactions; the
only aspect the peer loop inspects is whether `create_merkle_root`
succeeds (the rebuilt Merkle root matches the header), so that outcome is
abstracted into the `merkleOk` field. -/
structure Block where
  header : BlockHeader
  merkleOk : Bool
deriving DecidableEq

/-- Modelled from the spec: `Block::create_merkle_root` fails with
`InvalidMerkleRoot` exactly when the rebuilt root mismatches. -/
def createMerkleRoot (b : Block) : Except CustomError Unit :=
  if b.merkleOk then .ok () else .error .InvalidMerkleRoot

/-- Modelled from the spec: a ping message carries a 64-bit nonce. -/
structure Ping where
  nonce : Nat
deriving DecidableEq

/-- A frame the peer loop writes back to its stream: a `getheaders`
request identified by its locator, or a `pong` whose payload is the eight
little-endian nonce bytes. -/
inductive OutMsg where
  | getheaders (locator : Option (List Nat))
  | pong (payload : List Nat)
deriving DecidableEq

/-- The node-action channel schema of `src/peer.rs`, restricted to the
variants the stream loop emits. -/
inductive NodeAction where
  | NewHeaders (headers : List BlockHeader)
  | GetHeadersError
  | Block (hash : List Nat) (block : Block)
  | GetDataError (inventories : List Inventory)
deriving DecidableEq

/-- A log record emitted by the loop. -/
inductive LogEvent where
  | merkleError (hash : List Nat)
deriving DecidableEq

/-- Whether each effectful endpoint of the loop is still functional: the
node-action channel, the TCP stream for writes, and the logger channel. -/
structure Env where
  sendOk : Bool
  writeOk : Bool
  logOk : Bool
deriving DecidableEq

/-- The visible effects of the loop so far, in order within each kind. -/
structure Effects where
  actions : List NodeAction
  writes : List OutMsg
  logs : List LogEvent
deriving DecidableEq

/-- An empty effect trace. -/
def noEffects : Effects := ⟨[], [], []⟩

/-- Sending on the node-action channel: fails with `ChannelClosed` when the
receiving end is gone. -/
def sendAction (env : Env) (eff : Effects) (a : NodeAction) : Except CustomError Effects :=
  if env.sendOk then .ok { eff with actions := eff.actions ++ [a] }
  else .error .ChannelClosed

/-- Writing a frame to the peer stream: fails with an I/O error when the
stream is broken. -/
def writeMsg (env : Env) (eff : Effects) (m : OutMsg) : Except CustomError Effects :=
  if env.writeOk then .ok { eff with writes := eff.writes ++ [m] }
  else .error .IoErr

/-- Sending on the logger channel: fails with `ChannelClosed` when the
receiving end is gone. -/
def sendLog (env : Env) (eff : Effects) (l : LogEvent) : Except CustomError Effects :=
  if env.logOk then .ok { eff with logs := eff.logs ++ [l] }
  else .error .ChannelClosed

/-- Modelled from the spec: `request_headers` (in `src/peer.rs`, not among
the provided sources) writes a `getheaders` frame carrying the given
locator to the peer stream. -/
def requestHeaders (env : Env) (eff : Effects) (locator : Option (List Nat)) :
    Except CustomError Effects :=
  writeMsg env eff (.getheaders locator)

/-- PeerStreamLoop::handle_headers.  A failed `Headers::read` is converted
into a `GetHeadersError` action and the handler returns `Ok`; on success a
page of exactly 2000 headers first triggers `request_headers` with the
hash of the last header, and the page is then forwarded as `NewHeaders`.
An `Except.error` result is a handler error that terminates the event
loop. -/
def handleHeaders (env : Env) (readResult : Except CustomError (List BlockHeader))
    (eff : Effects) : Except CustomError Effects :=
  match readResult with
  | .error _ => sendAction env eff .GetHeadersError
  | .ok headers =>
    let afterRequest : Except CustomError Effects :=
      if headers.length = 2000 then
        requestHeaders env eff (headers.getLast?.map BlockHeader.hash)
      else .ok eff
    match afterRequest with
    | .error e => .error e
    | .ok eff1 => sendAction env eff1 (.NewHeaders headers)

/-- PeerStreamLoop::handle_block.  A failed `Block::read` propagates (the
source applies the question-mark operator to it), terminating the event
loop; a block whose Merkle root rebuilds is forwarded as a `Block` action;
a Merkle mismatch is converted into a `GetDataError` carrying a block
inventory for the header hash, followed by a log record. -/
def handleBlock (env : Env) (readResult : Except CustomError Block)
    (eff : Effects) : Except CustomError Effects :=
  match readResult with
  | .error e => .error e
  | .ok block =>
    match createMerkleRoot block with
    | .ok _ => sendAction env eff (.Block block.header.hash block)
    | .error _ =>
      let inventory : Inventory := ⟨.GetBlock, block.header.hash⟩
      match sendAction env eff (.GetDataError [inventory]) with
      | .error e => .error e
      | .ok eff1 => sendLog env eff1 (.merkleError block.header.hash)

/-- PeerStreamLoop::handle_ping.  A failed `Ping::read` propagates; a ping
is answered by writing a `pong` frame carrying the same nonce back on the
stream, with nothing sent on the node-action channel. -/
def handlePing (env : Env) (readResult : Except CustomError Ping)
    (eff : Effects) : Except CustomError Effects :=
  match readResult with
  | .error e => .error e
  | .ok ping => writeMsg env eff (.pong (leBytes8 ping.nonce))

/-! ## The compact target, numerically

The spec reads `bits` as base-256 scientific notation: exponent byte E
(the high byte), three mantissa bytes, target `M * 256 ^ (E - 3)`.  These
definitions and lemmas connect the byte-level loop of
`BlockHeader::validate` to that numeric reading. -/

/-- The exponent byte of a compact `bits` value: its high byte. -/
def decodeExponent (bits : Nat) : Nat := bits / 16777216 % 256

/-- The numeric target encoded by a compact `bits` value: the 24-bit
mantissa shifted so its most significant byte sits at byte index E - 1 of
a little-endian 32-byte integer. -/
def decodeTarget (bits : Nat) : Nat :=
  bits % 16777216 * 256 ^ (decodeExponent bits - 3)

/-- The big-endian bytes of `bits` are its exponent byte followed by the
three mantissa bytes. -/
theorem beBytes4_bits (bits : Nat) :
    beBytes4 bits =
      decodeExponent bits :: [bits / 65536 % 256, bits / 256 % 256, bits % 256] := rfl

/-- Little-endian value of a concatenation. -/
theorem leVal_append (xs ys : List Nat) :
    leVal (xs ++ ys) = leVal xs + 256 ^ xs.length * leVal ys := by
  induction xs with
  | nil => simp [leVal]
  | cons b t ih =>
    show leVal (b :: (t ++ ys)) = _
    simp only [leVal, ih, List.length_cons, pow_succ]
    ring

/-- A list of bytes is bounded by the power of 256 at its length. -/
theorem leVal_lt (xs : List Nat) (h : ∀ b ∈ xs, b < 256) :
    leVal xs < 256 ^ xs.length := by
  induction xs with
  | nil => simp [leVal]
  | cons b t ih =>
    have hb := h b (List.mem_cons_self b t)
    have ht := ih fun x hx => h x (List.mem_cons_of_mem _ hx)
    simp only [leVal, List.length_cons, pow_succ]
    omega

/-- The little-endian value vanishes exactly on all-zero byte lists. -/
theorem leVal_eq_zero_iff (xs : List Nat) : leVal xs = 0 ↔ ∀ b ∈ xs, b = 0 := by
  induction xs with
  | nil => simp [leVal]
  | cons b t ih =>
    simp only [leVal, List.mem_cons]
    constructor
    · intro h
      have hb : b = 0 := by omega
      have ht := ih.mp (by omega)
      intro x hx
      rcases hx with rfl | hx
      · exact hb
      · exact ht x hx
    · intro h
      have hb := h b (Or.inl rfl)
      have ht : leVal t = 0 := ih.mpr fun x hx => h x (Or.inr hx)
      omega

/-- The three-byte comparison loop agrees with numeric comparison of the
corresponding little-endian three-byte values. -/
theorem lexLess3_iff (a0 a1 a2 b0 b1 b2 : Nat)
    (ha0 : a0 < 256) (ha1 : a1 < 256) (hb0 : b0 < 256) (hb1 : b1 < 256) :
    (lexLess [a2, a1, a0] [b2, b1, b0] = true ↔
      a0 + 256 * a1 + 65536 * a2 < b0 + 256 * b1 + 65536 * b2) := by
  have e1 : lexLess [a2, a1, a0] [b2, b1, b0] =
      if a2 ≠ b2 then decide (a2 < b2)
      else if a1 ≠ b1 then decide (a1 < b1)
      else if a0 ≠ b0 then decide (a0 < b0)
      else false := rfl
  rw [e1]
  by_cases h1 : a2 = b2 <;> by_cases h2 : a1 = b1 <;> by_cases h3 : a0 = b0 <;>
    simp [h1, h2, h3] <;> omega

/-- Unfolding of the validate body for an in-range exponent: the result is
the conjunction of the leading-zeros check on the high bytes with the
byte-by-byte mantissa comparison. -/
theorem validateWith_eq (hash : List Nat) (bits : Nat) (hlen : hash.length = 32)
    (h3 : 3 ≤ decodeExponent bits) (h32 : decodeExponent bits ≤ 32) :
    validateWith hash bits =
      some ((!(hash.drop (decodeExponent bits)).any fun z => z ≠ 0) &&
        lexLess ((hash.drop (decodeExponent bits - 3)).take 3).reverse
          ((beBytes4 bits).drop 1)) := by
  have hs1 : sliceGet hash (decodeExponent bits) 32 =
      some (hash.drop (decodeExponent bits)) := by
    unfold sliceGet
    rw [if_pos ⟨h32, by omega⟩]
    have hdl : (hash.drop (decodeExponent bits)).length = 32 - decodeExponent bits := by
      simp [hlen]
    rw [← hdl, List.take_length]
  have hs2 : sliceGet hash (decodeExponent bits - 3) (decodeExponent bits) =
      some ((hash.drop (decodeExponent bits - 3)).take 3) := by
    unfold sliceGet
    rw [if_pos ⟨by omega, by omega⟩]
    have h33 : decodeExponent bits - (decodeExponent bits - 3) = 3 := by omega
    rw [h33]
  have hhead : (beBytes4 bits).headD 0 = decodeExponent bits := rfl
  unfold validateWith
  simp only [hhead, hs1, hs2]
  cases hany : (hash.drop (decodeExponent bits)).any fun z => decide (z ≠ 0) with
  | true => simp
  | false =>
    rw [if_neg (by simp : ¬ (false = true)), if_neg (by omega : ¬ decodeExponent bits < 3)]
    simp

/-- Scaling by the weight of the low bytes preserves the comparison of the
three significant bytes against the mantissa. -/
theorem lt_target_scale (low P v3 M : Nat) (hlow : low < P) :
    (low + P * v3 < M * P ↔ v3 < M) := by
  constructor
  · intro h
    by_contra hM
    push_neg at hM
    have h1 : M * P ≤ v3 * P := Nat.mul_le_mul_right P hM
    have h2 : v3 * P = P * v3 := Nat.mul_comm _ _
    omega
  · intro h
    have h1 : P * (v3 + 1) ≤ P * M := Nat.mul_le_mul_left P h
    have h2 : P * (v3 + 1) = P * v3 + P := by ring
    have h3 : P * M = M * P := Nat.mul_comm _ _
    omega

/-- A list of length at least three starts with three elements. -/
theorem exists_three_cons {l : List Nat} (h : 3 ≤ l.length) :
    ∃ a b c t, l = a :: b :: c :: t := by
  match l, h with
  | a :: b :: c :: t, _ => exact ⟨a, b, c, t, rfl⟩

/-- The byte-level validate loop decides exactly the numeric statement
that the little-endian hash value is strictly below the decoded target:
for an exponent byte between 3 and 32, `validateWith` returns `some` of
that comparison. -/
theorem validateWith_true_iff_lt (hash : List Nat) (bits : Nat)
    (hlen : hash.length = 32) (hbytes : ∀ b ∈ hash, b < 256)
    (h3 : 3 ≤ decodeExponent bits) (h32 : decodeExponent bits ≤ 32) :
    validateWith hash bits = some (decide (leVal hash < decodeTarget bits)) := by
  rw [validateWith_eq hash bits hlen h3 h32]
  congr 1
  -- Notation for the pieces of the comparison.
  have hsplit3 : hash.take (decodeExponent bits) ++ hash.drop (decodeExponent bits) = hash :=
    List.take_append_drop _ _
  obtain ⟨a, b, c, t, hd⟩ := exists_three_cons
    (by simp [hlen]; omega : 3 ≤ (hash.drop (decodeExponent bits - 3)).length)
  -- The tail of the three significant bytes is the high part of the hash.
  have htail : t = hash.drop (decodeExponent bits) := by
    have h1 : (hash.drop (decodeExponent bits - 3)).drop 3 = hash.drop (decodeExponent bits) := by
      rw [List.drop_drop]
      congr 1
      omega
    rw [← h1, hd]
    rfl
  -- Decompose the hash value at the split before the significant bytes.
  have hvalue : leVal hash =
      leVal (hash.take (decodeExponent bits - 3)) +
        256 ^ (decodeExponent bits - 3) *
          (a + 256 * b + 65536 * c + 16777216 * leVal (hash.drop (decodeExponent bits))) := by
    conv_lhs => rw [← List.take_append_drop (decodeExponent bits - 3) hash]
    rw [leVal_append, hd, htail]
    have hlt : (hash.take (decodeExponent bits - 3)).length = decodeExponent bits - 3 := by
      simp [hlen]; omega
    rw [hlt]
    simp only [leVal]
    ring
  have hlow : leVal (hash.take (decodeExponent bits - 3)) < 256 ^ (decodeExponent bits - 3) := by
    have := leVal_lt (hash.take (decodeExponent bits - 3))
      (fun x hx => hbytes x (List.mem_of_mem_take hx))
    have hlt : (hash.take (decodeExponent bits - 3)).length = decodeExponent bits - 3 := by
      simp [hlen]; omega
    rwa [hlt] at this
  have hdropbytes : ∀ x ∈ hash.drop (decodeExponent bits - 3), x < 256 :=
    fun x hx => hbytes x (List.mem_of_mem_drop hx)
  have ha : a < 256 := hdropbytes a (by rw [hd]; exact List.mem_cons_self _ _)
  have hb : b < 256 := hdropbytes b (by rw [hd]; simp)
  have hc : c < 256 := hdropbytes c (by rw [hd]; simp)
  rw [hd]
  cases hany : (hash.drop (decodeExponent bits)).any fun z => decide (z ≠ 0) with
  | true =>
    -- Some high byte is nonzero: the hash is at least 256 ^ E, above any target.
    have hnz : ¬ leVal (hash.drop (decodeExponent bits)) = 0 := by
      intro h0
      obtain ⟨x, hx, hxne⟩ := List.any_eq_true.mp hany
      have hx0 : x = 0 := (leVal_eq_zero_iff _).mp h0 x hx
      simp [hx0] at hxne
    have hge : 256 ^ (decodeExponent bits - 3) * 16777216 ≤ leVal hash := by
      have h1 : 1 ≤ leVal (hash.drop (decodeExponent bits)) := by omega
      have h2 : 16777216 ≤
          a + 256 * b + 65536 * c + 16777216 * leVal (hash.drop (decodeExponent bits)) := by
        omega
      have h3 := Nat.mul_le_mul_left (256 ^ (decodeExponent bits - 3)) h2
      omega
    have htlt : decodeTarget bits < 256 ^ (decodeExponent bits - 3) * 16777216 := by
      unfold decodeTarget
      have hm : bits % 16777216 < 16777216 := Nat.mod_lt _ (by omega)
      have hp : 0 < 256 ^ (decodeExponent bits - 3) := Nat.pos_pow_of_pos _ (by omega)
      have h4 := mul_lt_mul_of_pos_right hm hp
      omega
    have : ¬ leVal hash < decodeTarget bits := by omega
    simp [this]
  | false =>
    -- All high bytes are zero: compare the three significant bytes.
    have hz : leVal (hash.drop (decodeExponent bits)) = 0 := by
      rw [leVal_eq_zero_iff]
      intro x hx
      by_contra hxne
      have : (hash.drop (decodeExponent bits)).any (fun z => decide (z ≠ 0)) = true :=
        List.any_eq_true.mpr ⟨x, hx, by simpa using hxne⟩
      rw [hany] at this
      exact Bool.noConfusion this
    have hM : bits % 16777216 =
        bits % 256 + 256 * (bits / 256 % 256) + 65536 * (bits / 65536 % 256) := by
      omega
    have hlex := lexLess3_iff a b c (bits % 256) (bits / 256 % 256) (bits / 65536 % 256)
      ha hb (by omega) (by omega)
    have hscale := lt_target_scale (leVal (hash.take (decodeExponent bits - 3)))
      (256 ^ (decodeExponent bits - 3)) (a + 256 * b + 65536 * c) (bits % 16777216) hlow
    have harg : (List.take 3 (a :: b :: c :: t)).reverse = [c, b, a] := rfl
    have hmant : (beBytes4 bits).drop 1 =
        [bits / 65536 % 256, bits / 256 % 256, bits % 256] := rfl
    rw [harg, hmant]
    simp only [Bool.not_false, Bool.true_and]
    have hvalue0 : leVal hash =
        leVal (hash.take (decodeExponent bits - 3)) +
          256 ^ (decodeExponent bits - 3) * (a + 256 * b + 65536 * c) := by
      rw [hvalue, hz]
      ring
    have hiff : (lexLess [c, b, a] [bits / 65536 % 256, bits / 256 % 256, bits % 256] = true) ↔
        (leVal hash < decodeTarget bits) := by
      rw [hlex, ← hM, hvalue0]
      unfold decodeTarget
      exact hscale.symm
    cases hres : lexLess [c, b, a] [bits / 65536 % 256, bits / 256 % 256, bits % 256] with
    | true =>
      have := hiff.mp hres
      simp [this]
    | false =>
      have hnlt : ¬ (leVal hash < decodeTarget bits) := by
        intro hcon
        have hres2 := hiff.mpr hcon
        rw [hres] at hres2
        exact Bool.noConfusion hres2
      simp [hnlt]

/-- Three consecutive positions of a list, through drop and take. -/
theorem drop_take3_getD (l : List Nat) (k : Nat) (h : k + 3 ≤ l.length) :
    (l.drop k).take 3 = [l.getD k 0, l.getD (k + 1) 0, l.getD (k + 2) 0] := by
  induction k generalizing l with
  | zero =>
    match l, h with
    | a :: b :: c :: t, _ => simp
  | succ k ih =>
    match l, h with
    | a :: t, h =>
      simp only [List.drop_succ_cons, List.getD_cons_succ]
      exact ih t (by simp at h; omega)

/-- The bytes dropped from position E onward are all zero exactly when
every position at index at least E holds a zero. -/
theorem allZero_iff_getD (l : List Nat) (E : Nat) :
    (∀ b ∈ l.drop E, b = 0) ↔ ∀ i, E ≤ i → i < l.length → l.getD i 0 = 0 := by
  constructor
  · intro h i hE hi
    have h1 : (l.drop E)[i - E]? = l[i]? := by
      rw [List.getElem?_drop]
      have h2 : E + (i - E) = i := by omega
      rw [h2]
    rw [List.getD_eq_getElem?_getD, ← h1]
    cases h2 : (l.drop E)[i - E]? with
    | none => rfl
    | some b =>
      have hmem : b ∈ l.drop E := List.mem_iff_getElem?.mpr ⟨i - E, h2⟩
      have hb0 := h b hmem
      simp [hb0]
  · intro h b hb
    obtain ⟨j, hval⟩ := List.mem_iff_getElem?.mp hb
    have h1 : l[E + j]? = some b := by
      rw [← List.getElem?_drop]
      exact hval
    obtain ⟨hlt, hgetb⟩ := List.getElem?_eq_some_iff.mp h1
    have h2 := h (E + j) (by omega) hlt
    rw [List.getD_eq_getElem?_getD, h1] at h2
    simpa using h2

/-! ## Decomposition lemmas for the header parser -/

/-- Successful buffer extraction, spelled out. -/
theorem extractBuffer_of_le {n : Nat} {buf : List Nat} (h : n ≤ buf.length) :
    extractBuffer n buf = .ok (buf.take n, buf.drop n) := by
  unfold extractBuffer
  rw [if_pos h]

/-- Successful four-byte extraction, spelled out. -/
theorem extractU32_of_le {buf : List Nat} (h : 4 ≤ buf.length) :
    extractU32 buf = .ok (leVal (buf.take 4), buf.drop 4) := by
  unfold extractU32
  rw [if_pos h]

/-- The header fields a successful `BlockHeader::parse` reads from a
buffer, written with explicit cursor arithmetic.  This is a restatement
device: `parse_false_eq` proves the parser produces exactly this value. -/
def decodedHeader (buffer : List Nat) : BlockHeader :=
  ⟨leVal (buffer.take 4),
   (buffer.drop 4).take 32,
   ((buffer.drop 4).drop 32).take 32,
   leVal ((((buffer.drop 4).drop 32).drop 32).take 4),
   leVal (((((buffer.drop 4).drop 32).drop 32).drop 4).take 4),
   leVal ((((((buffer.drop 4).drop 32).drop 32).drop 4).drop 4).take 4)⟩

/-- Without validation, parsing a buffer of at least 80 bytes succeeds and
yields the decoded fields. -/
theorem parse_false_eq (buffer : List Nat) (h80 : ¬ buffer.length < 80) :
    BlockHeader.parse buffer false = some (.ok (decodedHeader buffer)) := by
  have e1 : extractU32 buffer = .ok (leVal (buffer.take 4), buffer.drop 4) :=
    extractU32_of_le (by omega)
  have e2 : extractBuffer 32 (buffer.drop 4) =
      .ok ((buffer.drop 4).take 32, (buffer.drop 4).drop 32) :=
    extractBuffer_of_le (by simp; omega)
  have e3 : extractBuffer 32 ((buffer.drop 4).drop 32) =
      .ok (((buffer.drop 4).drop 32).take 32, ((buffer.drop 4).drop 32).drop 32) :=
    extractBuffer_of_le (by simp; omega)
  have e4 : extractU32 (((buffer.drop 4).drop 32).drop 32) =
      .ok (leVal ((((buffer.drop 4).drop 32).drop 32).take 4),
        (((buffer.drop 4).drop 32).drop 32).drop 4) :=
    extractU32_of_le (by simp; omega)
  have e5 : extractU32 ((((buffer.drop 4).drop 32).drop 32).drop 4) =
      .ok (leVal (((((buffer.drop 4).drop 32).drop 32).drop 4).take 4),
        ((((buffer.drop 4).drop 32).drop 32).drop 4).drop 4) :=
    extractU32_of_le (by simp; omega)
  have e6 : extractU32 (((((buffer.drop 4).drop 32).drop 32).drop 4).drop 4) =
      .ok (leVal ((((((buffer.drop 4).drop 32).drop 32).drop 4).drop 4).take 4),
        (((((buffer.drop 4).drop 32).drop 32).drop 4).drop 4).drop 4) :=
    extractU32_of_le (by simp; omega)
  unfold BlockHeader.parse extractI32
  rw [if_neg h80]
  simp only [e1, e2, e3, e4, e5, e6]
  rfl

/-- Parsing with validation is parsing without validation followed by the
proof-of-work check, whose outcome is mapped onto `HeaderInvalidPoW` or a
panic. -/
theorem parse_true_eq (buffer : List Nat) :
    BlockHeader.parse buffer true =
      match BlockHeader.parse buffer false with
      | none => none
      | some (.error e) => some (.error e)
      | some (.ok hdr) =>
        match hdr.validate with
        | none => none
        | some true => some (.ok hdr)
        | some false => some (.error .HeaderInvalidPoW) := by
  by_cases h80 : buffer.length < 80
  · unfold BlockHeader.parse
    rw [if_pos h80, if_pos h80]
  · have e1 : extractU32 buffer = .ok (leVal (buffer.take 4), buffer.drop 4) :=
      extractU32_of_le (by omega)
    have e2 : extractBuffer 32 (buffer.drop 4) =
        .ok ((buffer.drop 4).take 32, (buffer.drop 4).drop 32) :=
      extractBuffer_of_le (by simp; omega)
    have e3 : extractBuffer 32 ((buffer.drop 4).drop 32) =
        .ok (((buffer.drop 4).drop 32).take 32, ((buffer.drop 4).drop 32).drop 32) :=
      extractBuffer_of_le (by simp; omega)
    have e4 : extractU32 (((buffer.drop 4).drop 32).drop 32) =
        .ok (leVal ((((buffer.drop 4).drop 32).drop 32).take 4),
          (((buffer.drop 4).drop 32).drop 32).drop 4) :=
      extractU32_of_le (by simp; omega)
    have e5 : extractU32 ((((buffer.drop 4).drop 32).drop 32).drop 4) =
        .ok (leVal (((((buffer.drop 4).drop 32).drop 32).drop 4).take 4),
          ((((buffer.drop 4).drop 32).drop 32).drop 4).drop 4) :=
      extractU32_of_le (by simp; omega)
    have e6 : extractU32 (((((buffer.drop 4).drop 32).drop 32).drop 4).drop 4) =
        .ok (leVal ((((((buffer.drop 4).drop 32).drop 32).drop 4).drop 4).take 4),
          (((((buffer.drop 4).drop 32).drop 32).drop 4).drop 4).drop 4) :=
      extractU32_of_le (by simp; omega)
    rw [parse_false_eq buffer h80]
    unfold BlockHeader.parse extractI32
    rw [if_neg h80]
    simp only [e1, e2, e3, e4, e5, e6]
    rfl

/-- Four bytes survive the little-endian round trip. -/
theorem leBytes4_leVal (l : List Nat) (h4 : l.length = 4) (hb : ∀ b ∈ l, b < 256) :
    leBytes4 (leVal l) = l := by
  match l, h4 with
  | [a, b, c, d], _ =>
    have ha := hb a (by simp)
    have hbb := hb b (by simp)
    have hc := hb c (by simp)
    have hd := hb d (by simp)
    simp only [leVal, leBytes4]
    refine List.cons_eq_cons.mpr ⟨by omega, ?_⟩
    refine List.cons_eq_cons.mpr ⟨by omega, ?_⟩
    refine List.cons_eq_cons.mpr ⟨by omega, ?_⟩
    refine List.cons_eq_cons.mpr ⟨by omega, rfl⟩

/-- Serializing the decoded fields reproduces the first 80 bytes of the
buffer. -/
theorem serialize_decodedHeader (buffer : List Nat) (h80 : 80 ≤ buffer.length)
    (hbytes : ∀ b ∈ buffer, b < 256) :
    (decodedHeader buffer).serialize = buffer.take 80 := by
  unfold decodedHeader BlockHeader.serialize
  simp only
  rw [leBytes4_leVal (buffer.take 4) (by simp; omega)
      (fun x hx => hbytes x (List.mem_of_mem_take hx)),
    leBytes4_leVal _ (by simp; omega)
      (fun x hx => hbytes x (by
        have := List.mem_of_mem_take hx
        exact List.mem_of_mem_drop (List.mem_of_mem_drop (List.mem_of_mem_drop this)))),
    leBytes4_leVal _ (by simp; omega)
      (fun x hx => hbytes x (by
        have := List.mem_of_mem_take hx
        exact List.mem_of_mem_drop
          (List.mem_of_mem_drop (List.mem_of_mem_drop (List.mem_of_mem_drop this))))),
    leBytes4_leVal _ (by simp; omega)
      (fun x hx => hbytes x (by
        have := List.mem_of_mem_take hx
        exact List.mem_of_mem_drop (List.mem_of_mem_drop
          (List.mem_of_mem_drop (List.mem_of_mem_drop (List.mem_of_mem_drop this))))))]
  have hsplit : buffer.take 80 =
      buffer.take 4 ++ ((buffer.drop 4).take 32 ++ (((buffer.drop 4).drop 32).take 32 ++
        ((((buffer.drop 4).drop 32).drop 32).take 4 ++
          (((((buffer.drop 4).drop 32).drop 32).drop 4).take 4 ++
            ((((((buffer.drop 4).drop 32).drop 32).drop 4).drop 4).take 4))))) := by
    rw [show (80 : Nat) = 4 + 76 from rfl, List.take_add,
      show (76 : Nat) = 32 + 44 from rfl, List.take_add,
      show (44 : Nat) = 32 + 12 from rfl, List.take_add,
      show (12 : Nat) = 4 + 8 from rfl, List.take_add,
      show (8 : Nat) = 4 + 4 from rfl, List.take_add]
  rw [hsplit]
  simp [List.append_assoc, List.drop_drop]

/-- The comparison loop on two equal lists runs out of positions and
reports `false`. -/
theorem lexLess_self (l : List Nat) : lexLess l l = false := by
  induction l with
  | nil => rfl
  | cons a t ih => simp [lexLess, ih]

/-- The decoded fields only depend on the first 80 bytes. -/
theorem decodedHeader_take80 (l : List Nat) :
    decodedHeader (l.take 80) = decodedHeader l := by
  unfold decodedHeader
  simp [List.drop_take, List.take_take, List.drop_drop]

/-- BlockHeader::parse ignores the bytes past offset 80. -/
theorem parse_take80 (buffer : List Nat) (v : Bool) (h80 : 80 ≤ buffer.length) :
    BlockHeader.parse buffer v = BlockHeader.parse (buffer.take 80) v := by
  have h80a : ¬ buffer.length < 80 := by omega
  have h80b : ¬ (buffer.take 80).length < 80 := by simp; omega
  cases v with
  | false => rw [parse_false_eq _ h80a, parse_false_eq _ h80b, decodedHeader_take80]
  | true => rw [parse_true_eq, parse_true_eq, parse_false_eq _ h80a,
      parse_false_eq _ h80b, decodedHeader_take80]

/-! ## Concrete vectors

The reference headers of the source tests (`valid_pow_header`,
`invalid_pow_header` in `src/messages/headers.rs`), and headers derived
from them that exercise the edge cases of `validate`. -/

/-- The previous-block hash of the test headers. -/
def testPrev : List Nat :=
  [61, 8, 52, 163, 234, 98, 255, 92, 186, 170, 164, 90, 56, 131, 46, 171, 52, 239,
   104, 223, 166, 65, 183, 217, 36, 6, 53, 63, 0, 0, 0, 0]

/-- The merkle root of the test headers. -/
def testMerkle : List Nat :=
  [45, 107, 6, 225, 181, 124, 4, 88, 86, 174, 58, 59, 113, 215, 174, 42, 209, 149,
   142, 110, 166, 53, 244, 88, 6, 76, 228, 77, 7, 10, 189, 126]

/-- The `valid_pow_header` test vector of the source. -/
def validPowHeader : BlockHeader :=
  ⟨2, testPrev, testMerkle, 1347149007, 476726600, 240236131⟩

/-- The `invalid_pow_header` test vector of the source: same header with a
different nonce. -/
def invalidPowHeader : BlockHeader :=
  ⟨2, testPrev, testMerkle, 1347149007, 476726600, 123123⟩

/-- A header whose `bits` is 0x20800001: exponent byte 32, mantissa
0x800001. -/
def looseBitsHeader : BlockHeader :=
  ⟨2, testPrev, testMerkle, 1347149007, 545259521, 11⟩

/-- The same header with `bits` 0x20800000: exponent byte 32, mantissa
0x800000, a strictly smaller target than `looseBitsHeader`. -/
def tightBitsHeader : BlockHeader :=
  ⟨2, testPrev, testMerkle, 1347149007, 545259520, 11⟩

/-- A header whose `bits` is 0x02FFFFFF: exponent byte 2, below the range
the validate slices require. -/
def lowExponentHeader : BlockHeader :=
  ⟨2, testPrev, testMerkle, 1347149007, 50331647, 0⟩

/-- An environment with every effectful endpoint functional. -/
def envAll : Env := ⟨true, true, true⟩

/-! ## Claims about the peer stream loop -/

/-- C6: a successfully parsed headers page is always forwarded as a
`NewHeaders` action; exactly when the page has 2000 headers, a
`getheaders` frame whose locator is the hash of the last header of the
page is written first.  Any other page size writes nothing. -/
theorem c6_headers_page (env : Env) (eff : Effects) (headers : List BlockHeader)
    (hsend : env.sendOk = true) (hwrite : env.writeOk = true) :
    (handleHeaders env (.ok headers) eff =
      .ok { eff with
        actions := eff.actions ++ [.NewHeaders headers],
        writes := eff.writes ++
          (if headers.length = 2000 then
            [.getheaders (headers.getLast?.map BlockHeader.hash)]
          else []) }) ∧
    (headers.length = 2000 →
      ∃ lastHdr, headers.getLast? = some lastHdr ∧
        headers.getLast?.map BlockHeader.hash = some lastHdr.hash) := by
  constructor
  · unfold handleHeaders requestHeaders writeMsg sendAction
    by_cases h2000 : headers.length = 2000
    · simp [h2000, hsend, hwrite]
    · simp [h2000, hsend]
  · intro h2000
    have hne : headers ≠ [] := by
      intro hnil
      rw [hnil] at h2000
      simp at h2000
    obtain ⟨lastHdr, hlast⟩ := Option.isSome_iff_exists.mp
      (List.getLast?_isSome.mpr hne)
    exact ⟨lastHdr, hlast, by rw [hlast]; rfl⟩

/-- C6 witness: a page of zero headers is forwarded without a follow-up
request. -/
theorem c6_headers_page_witness :
    envAll.sendOk = true ∧ envAll.writeOk = true ∧
    ((handleHeaders envAll (.ok []) noEffects =
      .ok { noEffects with
        actions := noEffects.actions ++ [.NewHeaders []],
        writes := noEffects.writes ++
          (if ([] : List BlockHeader).length = 2000 then
            [.getheaders (([] : List BlockHeader).getLast?.map BlockHeader.hash)]
          else []) }) ∧
    (([] : List BlockHeader).length = 2000 →
      ∃ lastHdr, ([] : List BlockHeader).getLast? = some lastHdr ∧
        ([] : List BlockHeader).getLast?.map BlockHeader.hash = some lastHdr.hash)) :=
  ⟨rfl, rfl, c6_headers_page envAll noEffects [] rfl rfl⟩

/-- C8: a ping whose read succeeds is answered by a single pong frame
carrying the eight little-endian bytes of the same nonce, and nothing is
sent on the node-action channel (the actions and logs components of the
trace are unchanged). -/
theorem c8_ping_pong (env : Env) (eff : Effects) (n : Nat)
    (hwrite : env.writeOk = true) :
    handlePing env (.ok ⟨n⟩) eff =
      .ok { eff with writes := eff.writes ++ [.pong (leBytes8 n)] } := by
  unfold handlePing writeMsg
  rw [hwrite]
  simp

/-- C8 witness at nonce 7. -/
theorem c8_ping_pong_witness :
    envAll.writeOk = true ∧
    handlePing envAll (.ok ⟨7⟩) noEffects =
      .ok { noEffects with writes := noEffects.writes ++ [.pong (leBytes8 7)] } :=
  ⟨rfl, c8_ping_pong envAll noEffects 7 rfl⟩

/-- C3 counterexample: a block whose read fails (here with the wire-codec
error `SerializedBufferIsInvalid`) terminates the handler with that error
instead of sending a `GetDataError` action and continuing.  This refutes
the claim that every payload parse failure is converted into an error
action on the channel. -/
theorem c3_block_parse_terminates :
    handleBlock envAll (.error .SerializedBufferIsInvalid) noEffects =
      .error .SerializedBufferIsInvalid := rfl

/-- C3 amended: a failed headers read of any kind is converted into a
`GetHeadersError` action and the loop continues; a failed block read of
any kind terminates the loop with that error; a block whose Merkle root
mismatches is converted into a `GetDataError` action plus a log record and
the loop continues; and a closed action channel terminates the loop with
`ChannelClosed`. -/
theorem c3_error_propagation :
    (∀ (env : Env) (eff : Effects) (e : CustomError), env.sendOk = true →
      handleHeaders env (.error e) eff =
        .ok { eff with actions := eff.actions ++ [.GetHeadersError] }) ∧
    (∀ (env : Env) (eff : Effects) (e : CustomError),
      handleBlock env (.error e) eff = .error e) ∧
    (∀ (env : Env) (eff : Effects) (b : Block),
      env.sendOk = true → env.logOk = true → b.merkleOk = false →
      handleBlock env (.ok b) eff =
        .ok { eff with
          actions := eff.actions ++ [.GetDataError [⟨.GetBlock, b.header.hash⟩]],
          logs := eff.logs ++ [.merkleError b.header.hash] }) ∧
    (∀ (env : Env) (eff : Effects) (e : CustomError), env.sendOk = false →
      handleHeaders env (.error e) eff = .error .ChannelClosed) := by
  refine ⟨?_, ?_, ?_, ?_⟩
  · intro env eff e hsend
    unfold handleHeaders sendAction
    rw [hsend]
    simp
  · intro env eff e
    rfl
  · intro env eff b hsend hlog hmerkle
    unfold handleBlock createMerkleRoot sendAction sendLog
    simp [hmerkle, hsend, hlog]
  · intro env eff e hsend
    unfold handleHeaders sendAction
    rw [hsend]
    simp

/-- C3 amended witness: a failed headers read converts, a failed block
read terminates. -/
theorem c3_error_propagation_witness :
    envAll.sendOk = true ∧
    (handleHeaders envAll (.error .SerializedBufferIsInvalid) noEffects =
      .ok { noEffects with actions := noEffects.actions ++ [.GetHeadersError] }) ∧
    handleBlock envAll (.error .IoErr) noEffects = .error .IoErr :=
  ⟨rfl, c3_error_propagation.1 envAll noEffects .SerializedBufferIsInvalid rfl,
    c3_error_propagation.2.1 envAll noEffects .IoErr⟩

/-! ## Claims about the wallet record codec -/

/-- All three fields of a wallet fit their one-byte length prefixes. -/
def walletFits (w : Wallet) : Prop :=
  w.name.length ≤ 255 ∧ w.pubkey.length ≤ 255 ∧ w.privkey.length ≤ 255

instance (w : Wallet) : Decidable (walletFits w) := by
  unfold walletFits
  infer_instance

/-- The concatenation of the serializations of a list of wallets: the
wallet-file layout, one record after another. -/
def serializeWallets : List Wallet → List Nat
  | [] => []
  | w :: rest => w.serialize ++ serializeWallets rest

/-- Extracting a string of exactly the length of a prefix returns that
prefix. -/
theorem extractString_append (s X : List Nat) :
    extractString s.length (s ++ X) = .ok (s, X) := by
  unfold extractString
  rw [extractBuffer_of_le (by simp)]
  rw [List.take_left, List.drop_left]

/-- A serialized record parses back to the wallet, leaving the rest of
the buffer untouched, whenever the three fields fit their length bytes. -/
theorem parseWalletRecord_serialize (w : Wallet) (rest : List Nat)
    (hfits : walletFits w) :
    parseWalletRecord (w.serialize ++ rest) = .ok (w, rest) := by
  obtain ⟨h1, h2, h3⟩ := hfits
  have e1 : w.name.length % 256 = w.name.length := Nat.mod_eq_of_lt (by omega)
  have e2 : w.pubkey.length % 256 = w.pubkey.length := Nat.mod_eq_of_lt (by omega)
  have e3 : w.privkey.length % 256 = w.privkey.length := Nat.mod_eq_of_lt (by omega)
  unfold Wallet.serialize parseWalletRecord
  simp only [List.cons_append, List.append_assoc, e1, e2, e3, extractU8,
    extractString_append]

/-- Parsing a buffer that starts with a well-formed serialized record
parses that record and continues on the rest. -/
theorem parseWallets_record_cons (w : Wallet) (X : List Nat) (hfits : walletFits w) :
    parseWallets (w.serialize ++ X) =
      match parseWallets X with
      | .error e => .error e
      | .ok ws => .ok (w :: ws) := by
  have hcons : w.serialize ++ X =
      w.name.length % 256 :: (w.name ++
        (w.pubkey.length % 256 :: (w.pubkey ++
          (w.privkey.length % 256 :: (w.privkey ++ X))))) := by
    simp [Wallet.serialize, List.cons_append, List.append_assoc]
  have hrec := parseWalletRecord_serialize w X hfits
  rw [hcons] at hrec ⊢
  rw [parseWallets]
  rw [hrec]

/-- C10: the wallet-record codec round-trips: parsing the concatenated
serializations of any list of wallets whose fields fit their one-byte
length prefixes returns exactly that list. -/
theorem c10_wallet_roundtrip (ws : List Wallet)
    (hfits : ∀ w ∈ ws, walletFits w) :
    parseWallets (serializeWallets ws) = .ok ws := by
  induction ws with
  | nil => simp [serializeWallets, parseWallets]
  | cons w rest ih =>
    have hw := hfits w (List.mem_cons_self _ _)
    have hrest := ih fun x hx => hfits x (List.mem_cons_of_mem _ hx)
    unfold serializeWallets
    rw [parseWallets_record_cons w _ hw, hrest]

/-- C10 witness: a concrete two-wallet list round-trips. -/
theorem c10_wallet_roundtrip_witness :
    (∀ w ∈ [(⟨[97], [98, 99], [100]⟩ : Wallet), ⟨[], [], []⟩], walletFits w) ∧
    parseWallets (serializeWallets [⟨[97], [98, 99], [100]⟩, ⟨[], [], []⟩]) =
      .ok [⟨[97], [98, 99], [100]⟩, ⟨[], [], []⟩] :=
  ⟨by decide, c10_wallet_roundtrip _ (by decide)⟩

/-- A successful string extraction splits the buffer at the requested
length. -/
theorem extractString_inv {n : Nat} {l s r : List Nat}
    (h : extractString n l = .ok (s, r)) : s ++ r = l ∧ s.length = n := by
  unfold extractString extractBuffer at h
  split at h
  · cases h
    refine ⟨List.take_append_drop _ _, ?_⟩
    simp only [List.length_take]
    omega
  · exact Except.noConfusion h

/-- The inverse direction for one record: a successful record parse came
from exactly the serialization of its result. -/
theorem parseWalletRecord_inv {buf : List Nat} {w : Wallet} {r : List Nat}
    (hbytes : ∀ b ∈ buf, b < 256)
    (h : parseWalletRecord buf = .ok (w, r)) :
    w.serialize ++ r = buf ∧ walletFits w := by
  cases buf with
  | nil => exact absurd h (by simp [parseWalletRecord, extractU8])
  | cons b rest =>
    unfold parseWalletRecord at h
    simp only [extractU8] at h
    cases h2 : extractString b rest with
    | error e => simp only [h2] at h; exact Except.noConfusion h
    | ok p2 =>
      obtain ⟨name, r2⟩ := p2
      simp only [h2] at h
      cases r2 with
      | nil => simp only [extractU8] at h; exact Except.noConfusion h
      | cons b2 rest2 =>
        simp only [extractU8] at h
        cases h4 : extractString b2 rest2 with
        | error e => simp only [h4] at h; exact Except.noConfusion h
        | ok p4 =>
          obtain ⟨pubkey, r4⟩ := p4
          simp only [h4] at h
          cases r4 with
          | nil => simp only [extractU8] at h; exact Except.noConfusion h
          | cons b3 rest3 =>
            simp only [extractU8] at h
            cases h6 : extractString b3 rest3 with
            | error e => simp only [h6] at h; exact Except.noConfusion h
            | ok p6 =>
              obtain ⟨privkey, r6⟩ := p6
              simp only [h6, Except.ok.injEq, Prod.mk.injEq] at h
              obtain ⟨rfl, rfl⟩ := h
              obtain ⟨hn1, hn2⟩ := extractString_inv h2
              obtain ⟨hp1, hp2⟩ := extractString_inv h4
              obtain ⟨hq1, hq2⟩ := extractString_inv h6
              have hbb : b < 256 := hbytes b (List.mem_cons_self _ _)
              have hbb2 : b2 < 256 := hbytes b2 (by
                apply List.mem_cons_of_mem
                rw [← hn1]
                exact List.mem_append_right _ (List.mem_cons_self _ _))
              have hbb3 : b3 < 256 := hbytes b3 (by
                apply List.mem_cons_of_mem
                rw [← hn1]
                apply List.mem_append_right
                apply List.mem_cons_of_mem
                rw [← hp1]
                exact List.mem_append_right _ (List.mem_cons_self _ _))
              constructor
              · simp only [Wallet.serialize, hn2, hp2, hq2,
                  Nat.mod_eq_of_lt hbb, Nat.mod_eq_of_lt hbb2, Nat.mod_eq_of_lt hbb3,
                  List.cons_append, List.append_assoc]
                rw [hq1, hp1, hn1]
              · have f1 : name.length ≤ 255 := by omega
                have f2 : pubkey.length ≤ 255 := by omega
                have f3 : privkey.length ≤ 255 := by omega
                exact ⟨f1, f2, f3⟩

/-- One unfolding step of the wallet-parse loop on a nonempty buffer. -/
theorem parseWallets_cons_eq (b : Nat) (rest : List Nat) :
    parseWallets (b :: rest) =
      match parseWalletRecord (b :: rest) with
      | .error e => .error e
      | .ok (w, r) =>
        match parseWallets r with
        | .error e => .error e
        | .ok ws => .ok (w :: ws) := by
  rw [parseWallets]
  cases hrec : parseWalletRecord (b :: rest) with
  | error e => rfl
  | ok p =>
    obtain ⟨w, r⟩ := p
    rfl

/-- A successful wallet parse consumed the buffer exactly: the result
serializes back to the whole input, so no byte was read past the end and
no field was silently truncated. -/
theorem parseWallets_inv (n : Nat) : ∀ (buf : List Nat) (ws : List Wallet),
    buf.length ≤ n → (∀ b ∈ buf, b < 256) → parseWallets buf = .ok ws →
    serializeWallets ws = buf ∧ ∀ w ∈ ws, walletFits w := by
  induction n with
  | zero =>
    intro buf ws hlen hbytes h
    match buf, hlen with
    | [], _ =>
      rw [parseWallets] at h
      cases h
      exact ⟨rfl, by simp⟩
  | succ n ih =>
    intro buf ws hlen hbytes h
    cases buf with
    | nil =>
      rw [parseWallets] at h
      cases h
      exact ⟨rfl, by simp⟩
    | cons b rest =>
      rw [parseWallets_cons_eq] at h
      cases hrec : parseWalletRecord (b :: rest) with
      | error e => simp only [hrec] at h; exact Except.noConfusion h
      | ok p =>
        obtain ⟨w, r⟩ := p
        simp only [hrec] at h
        cases hp : parseWallets r with
        | error e => simp only [hp] at h; exact Except.noConfusion h
        | ok ws2 =>
          simp only [hp, Except.ok.injEq] at h
          subst h
          obtain ⟨hser, hfits⟩ := parseWalletRecord_inv hbytes hrec
          have hlenr := parseWalletRecord_length hrec
          have hbytesr : ∀ x ∈ r, x < 256 := fun x hx =>
            hbytes x (by rw [← hser]; exact List.mem_append_right _ hx)
          obtain ⟨hser2, hfits2⟩ := ih r ws2 (by simp at hlenr hlen ⊢; omega) hbytesr hp
          constructor
          · show w.serialize ++ serializeWallets ws2 = b :: rest
            rw [hser2, hser]
          · intro x hx
            rcases List.mem_cons.mp hx with rfl | hx2
            · exact hfits
            · exact hfits2 x hx2

/-- One record position announces more bytes than remain: the first
length byte overruns, or it fits and the second overruns, or both fit and
the third overruns. -/
def recordOverrun (bs : List Nat) : Bool :=
  match bs with
  | [] => false
  | l1 :: r1 =>
    decide (r1.length < l1) ||
    match r1.drop l1 with
    | [] => false
    | l2 :: r2 =>
      decide (r2.length < l2) ||
      match r2.drop l2 with
      | [] => false
      | l3 :: r3 => decide (r3.length < l3)

/-- A buffer whose next record overruns makes the record parser fail with
`SerializedBufferIsInvalid`. -/
theorem parseWalletRecord_overrun (bs : List Nat) (hov : recordOverrun bs = true) :
    parseWalletRecord bs = .error .SerializedBufferIsInvalid := by
  cases bs with
  | nil => exact absurd hov (by simp [recordOverrun])
  | cons l1 r1 =>
    unfold parseWalletRecord
    simp only [extractU8]
    by_cases hc1 : r1.length < l1
    · have : extractString l1 r1 = .error .SerializedBufferIsInvalid := by
        unfold extractString extractBuffer
        rw [if_neg (by omega)]
      rw [this]
    · have hs1 : extractString l1 r1 = .ok (r1.take l1, r1.drop l1) := by
        unfold extractString
        exact extractBuffer_of_le (by omega)
      rw [hs1]
      unfold recordOverrun at hov
      rw [Bool.or_eq_true, decide_eq_true_eq] at hov
      rcases hov with hov | hov
      · omega
      · cases hd1 : r1.drop l1 with
        | nil => rw [hd1] at hov
        | cons l2 r2 =>
          rw [hd1] at hov
          simp only [extractU8]
          by_cases hc2 : r2.length < l2
          · have : extractString l2 r2 = .error .SerializedBufferIsInvalid := by
              unfold extractString extractBuffer
              rw [if_neg (by omega)]
            rw [this]
          · have hs2 : extractString l2 r2 = .ok (r2.take l2, r2.drop l2) := by
              unfold extractString
              exact extractBuffer_of_le (by omega)
            rw [hs2]
            rw [Bool.or_eq_true, decide_eq_true_eq] at hov
            rcases hov with hov | hov
            · omega
            · cases hd2 : r2.drop l2 with
              | nil => rw [hd2] at hov
              | cons l3 r3 =>
                rw [hd2] at hov
                simp only [extractU8]
                rw [decide_eq_true_eq] at hov
                have : extractString l3 r3 = .error .SerializedBufferIsInvalid := by
                  unfold extractString extractBuffer
                  rw [if_neg (by omega)]
                rw [this]

/-- C9: the wallet parser fails with `SerializedBufferIsInvalid` whenever
the record it reaches announces, in any of its three length bytes, more
bytes than remain; and on success it consumed the buffer exactly (the
parsed wallets serialize back to the entire input), so it never reads
past the end or silently truncates a field. -/
theorem c9_wallet_parser_bounds :
    (∀ (ws : List Wallet) (rest : List Nat), (∀ w ∈ ws, walletFits w) →
      recordOverrun rest = true →
      parseWallets (serializeWallets ws ++ rest) = .error .SerializedBufferIsInvalid) ∧
    (∀ (buf : List Nat) (ws : List Wallet), (∀ b ∈ buf, b < 256) →
      parseWallets buf = .ok ws →
      serializeWallets ws = buf ∧ ∀ w ∈ ws, walletFits w) := by
  constructor
  · intro ws rest hfits hov
    induction ws with
    | nil =>
      show parseWallets ([] ++ rest) = _
      rw [List.nil_append]
      have hrec := parseWalletRecord_overrun rest hov
      cases rest with
      | nil => exact absurd hov (by simp [recordOverrun])
      | cons b r =>
        rw [parseWallets, hrec]
    | cons w tl ih =>
      have hassoc : serializeWallets (w :: tl) ++ rest =
          w.serialize ++ (serializeWallets tl ++ rest) := by
        show (w.serialize ++ serializeWallets tl) ++ rest = _
        rw [List.append_assoc]
      rw [hassoc, parseWallets_record_cons w _ (hfits w (List.mem_cons_self _ _)),
        ih fun x hx => hfits x (List.mem_cons_of_mem _ hx)]
  · intro buf ws hbytes h
    exact parseWallets_inv buf.length buf ws le_rfl hbytes h

/-- C9 witness: a length byte of 5 with one remaining byte fails. -/
theorem c9_wallet_parser_bounds_witness :
    recordOverrun [5, 97] = true ∧
    parseWallets (serializeWallets [] ++ [5, 97]) = .error .SerializedBufferIsInvalid :=
  ⟨by decide, c9_wallet_parser_bounds.1 [] [5, 97] (by simp) (by decide)⟩

/-! ## Claims about proof-of-work validation -/

/-- A header whose `bits` is 0x21FFFFFF: exponent byte 33, above the
32-byte hash. -/
def highExponentHeader : BlockHeader :=
  ⟨2, testPrev, testMerkle, 1347149007, 570425343, 0⟩

set_option maxRecDepth 1000000 in
/-- C4 counterexample: two headers identical except for `bits`, where the
second target is strictly tighter (smaller), yet the header is rejected
under the looser `bits` and accepted under the tighter one — because
`bits` is hashed along with the rest of the header, so changing it
changes the hash being compared. -/
theorem c4_tighter_bits_accepts :
    looseBitsHeader = { tightBitsHeader with bits := 545259521 } ∧
    decodeTarget tightBitsHeader.bits ≤ decodeTarget looseBitsHeader.bits ∧
    looseBitsHeader.validate = some false ∧
    tightBitsHeader.validate = some true :=
  ⟨rfl, by decide, by decide, by decide⟩

/-- C4 amended: monotonicity does hold for a fixed hash value.  For any
32-byte hash, if the byte-level check rejects the hash against the target
decoded from `b1`, it also rejects it against any `b2` whose decoded
target is no larger (both exponents in the range the check supports). -/
theorem c4_pow_monotonic_fixed_hash (hash : List Nat) (b1 b2 : Nat)
    (hlen : hash.length = 32) (hbytes : ∀ b ∈ hash, b < 256)
    (hE1a : 3 ≤ decodeExponent b1) (hE1b : decodeExponent b1 ≤ 32)
    (hE2a : 3 ≤ decodeExponent b2) (hE2b : decodeExponent b2 ≤ 32)
    (hmono : decodeTarget b2 ≤ decodeTarget b1)
    (hfail : validateWith hash b1 = some false) :
    validateWith hash b2 = some false := by
  have h1 := validateWith_true_iff_lt hash b1 hlen hbytes hE1a hE1b
  have h2 := validateWith_true_iff_lt hash b2 hlen hbytes hE2a hE2b
  rw [h1] at hfail
  have hd1 : decide (leVal hash < decodeTarget b1) = false := Option.some_inj.mp hfail
  have hn1 : ¬ leVal hash < decodeTarget b1 := of_decide_eq_false hd1
  have hn2 : ¬ leVal hash < decodeTarget b2 := by omega
  rw [h2, decide_eq_false hn2]

/-- C4 amended witness: the all-0xFF hash against `bits` 0x20FFFFFF. -/
theorem c4_pow_monotonic_fixed_hash_witness :
    (List.replicate 32 255).length = 32 ∧
    (∀ b ∈ List.replicate 32 255, b < 256) ∧
    3 ≤ decodeExponent 553648127 ∧ decodeExponent 553648127 ≤ 32 ∧
    decodeTarget 553648127 ≤ decodeTarget 553648127 ∧
    validateWith (List.replicate 32 255) 553648127 = some false ∧
    validateWith (List.replicate 32 255) 553648127 = some false :=
  ⟨by decide, by decide, by decide, by decide, le_rfl, by decide,
    c4_pow_monotonic_fixed_hash (List.replicate 32 255) 553648127 553648127
      (by decide) (by decide) (by decide) (by decide) (by decide) (by decide)
      le_rfl (by decide)⟩

set_option maxRecDepth 1000000 in
/-- C7 counterexample: a `bits` value with exponent byte 2 (below 3) on
which `validate` does not panic: the hash has a nonzero byte past index
2, so the function returns `false` before reaching the underflowing
slice. -/
theorem c7_low_exponent_returns :
    decodeExponent lowExponentHeader.bits = 2 ∧
    lowExponentHeader.validate = some false :=
  ⟨by decide, by decide⟩

/-- C7 amended: `validate` always panics when the exponent byte exceeds
32 (the first slice lookup fails); for an exponent byte below 3 it panics
exactly when every hash byte at index at least E is zero (otherwise the
leading-zeros check returns `false` first); and `BlockHeader::parse` with
validation enabled runs `validate` without any precondition check, so a
panicking header makes the parse panic. -/
theorem c7_validate_partiality :
    (∀ h : BlockHeader, 32 < decodeExponent h.bits → h.validate = none) ∧
    (∀ h : BlockHeader, decodeExponent h.bits < 3 →
      (h.validate = none ↔ ∀ b ∈ h.hash.drop (decodeExponent h.bits), b = 0)) ∧
    (∀ (buffer : List Nat) (hdr : BlockHeader),
      BlockHeader.parse buffer false = some (.ok hdr) → hdr.validate = none →
      BlockHeader.parse buffer true = none) := by
  refine ⟨?_, ?_, ?_⟩
  · intro h hE
    show validateWith h.hash h.bits = none
    have hhead : (beBytes4 h.bits).headD 0 = decodeExponent h.bits := rfl
    have hs : sliceGet h.hash (decodeExponent h.bits) 32 = none := by
      unfold sliceGet
      rw [if_neg]
      intro hcon
      exact absurd hcon.1 (by omega)
    unfold validateWith
    simp only [hhead, hs]
  · intro h hE
    show validateWith h.hash h.bits = none ↔ _
    have hlen : h.hash.length = 32 := sha256d_length _
    have hhead : (beBytes4 h.bits).headD 0 = decodeExponent h.bits := rfl
    have hs1 : sliceGet h.hash (decodeExponent h.bits) 32 =
        some (h.hash.drop (decodeExponent h.bits)) := by
      unfold sliceGet
      rw [if_pos ⟨by omega, by omega⟩]
      have hdl : (h.hash.drop (decodeExponent h.bits)).length =
          32 - decodeExponent h.bits := by simp [hlen]
      rw [← hdl, List.take_length]
    unfold validateWith
    simp only [hhead, hs1]
    cases hany : (h.hash.drop (decodeExponent h.bits)).any fun z => decide (z ≠ 0) with
    | true =>
      obtain ⟨x, hx, hxne⟩ := List.any_eq_true.mp hany
      have hR : ¬ ∀ b ∈ h.hash.drop (decodeExponent h.bits), b = 0 := by
        intro hall
        have := hall x hx
        simp [this] at hxne
      simp [hR]
    | false =>
      have hall : ∀ b ∈ h.hash.drop (decodeExponent h.bits), b = 0 := by
        intro b hb
        by_contra hbne
        have : (h.hash.drop (decodeExponent h.bits)).any (fun z => decide (z ≠ 0)) = true :=
          List.any_eq_true.mpr ⟨b, hb, by simpa using hbne⟩
        rw [hany] at this
        exact Bool.noConfusion this
      rw [if_neg (by simp : ¬ (false = true)), if_pos hE]
      exact iff_of_true rfl hall
  · intro buffer hdr hparse hnone
    rw [parse_true_eq]
    simp only [hparse, hnone]

/-- C7 amended witness: an exponent byte of 33 makes `validate` panic. -/
theorem c7_validate_partiality_witness :
    32 < decodeExponent highExponentHeader.bits ∧
    highExponentHeader.validate = none :=
  ⟨by decide, c7_validate_partiality.1 highExponentHeader (by decide)⟩

/-- C1: for a header whose exponent byte E lies between 3 and 32,
`validate` returns true exactly when every hash byte at index at least E
is zero and the three hash bytes at indices E-1, E-2, E-3 — most
significant first — compare strictly below the three mantissa bytes of
`bits` before any position compares above; and byte-for-byte equality
with the mantissa makes `validate` return false. -/
theorem c1_validate_byte_rule (h : BlockHeader)
    (h3 : 3 ≤ decodeExponent h.bits) (h32 : decodeExponent h.bits ≤ 32) :
    (h.validate = some true ↔
      ((∀ i, decodeExponent h.bits ≤ i → i < 32 → h.hash.getD i 0 = 0) ∧
        lexLess [h.hash.getD (decodeExponent h.bits - 1) 0,
                 h.hash.getD (decodeExponent h.bits - 2) 0,
                 h.hash.getD (decodeExponent h.bits - 3) 0]
          ((beBytes4 h.bits).drop 1) = true)) ∧
    ([h.hash.getD (decodeExponent h.bits - 1) 0,
      h.hash.getD (decodeExponent h.bits - 2) 0,
      h.hash.getD (decodeExponent h.bits - 3) 0] = (beBytes4 h.bits).drop 1 →
      h.validate = some false) := by
  have hlen : h.hash.length = 32 := sha256d_length _
  have hv : h.validate = validateWith h.hash h.bits := rfl
  have htake3 : ((h.hash.drop (decodeExponent h.bits - 3)).take 3).reverse =
      [h.hash.getD (decodeExponent h.bits - 1) 0,
       h.hash.getD (decodeExponent h.bits - 2) 0,
       h.hash.getD (decodeExponent h.bits - 3) 0] := by
    rw [drop_take3_getD h.hash (decodeExponent h.bits - 3) (by omega)]
    have e1 : decodeExponent h.bits - 3 + 1 = decodeExponent h.bits - 2 := by omega
    have e2 : decodeExponent h.bits - 3 + 2 = decodeExponent h.bits - 1 := by omega
    rw [e1, e2]
    rfl
  have hzero : ((!(h.hash.drop (decodeExponent h.bits)).any fun z => decide (z ≠ 0)) = true) ↔
      (∀ i, decodeExponent h.bits ≤ i → i < 32 → h.hash.getD i 0 = 0) := by
    constructor
    · intro hA i hEi hi
      have hfalse : (h.hash.drop (decodeExponent h.bits)).any (fun z => decide (z ≠ 0)) = false := by
        cases hx : (h.hash.drop (decodeExponent h.bits)).any (fun z => decide (z ≠ 0)) with
        | false => rfl
        | true => rw [hx] at hA; exact Bool.noConfusion hA
      have hall := List.any_eq_false.mp hfalse
      have hall2 : ∀ b ∈ h.hash.drop (decodeExponent h.bits), b = 0 := fun b hb => by
        have := hall b hb
        simpa using this
      exact (allZero_iff_getD h.hash (decodeExponent h.bits)).mp hall2 i hEi (by omega)
    · intro hP
      have hall2 : ∀ b ∈ h.hash.drop (decodeExponent h.bits), b = 0 :=
        (allZero_iff_getD h.hash (decodeExponent h.bits)).mpr
          fun i hEi hi => hP i hEi (by omega)
      have hfalse : (h.hash.drop (decodeExponent h.bits)).any (fun z => decide (z ≠ 0)) = false :=
        List.any_eq_false.mpr fun b hb => by simp [hall2 b hb]
      rw [hfalse]
      rfl
  rw [hv, validateWith_eq h.hash h.bits hlen h3 h32, htake3]
  constructor
  · rw [Option.some_inj, Bool.and_eq_true]
    exact and_congr hzero Iff.rfl
  · intro hmant
    rw [hmant, lexLess_self]
    simp

set_option maxRecDepth 1000000 in
/-- C1 witness: the valid-PoW test header of the source, whose exponent
byte is 28. -/
theorem c1_validate_byte_rule_witness :
    3 ≤ decodeExponent validPowHeader.bits ∧ decodeExponent validPowHeader.bits ≤ 32 ∧
    ((validPowHeader.validate = some true ↔
      ((∀ i, decodeExponent validPowHeader.bits ≤ i → i < 32 →
          validPowHeader.hash.getD i 0 = 0) ∧
        lexLess [validPowHeader.hash.getD (decodeExponent validPowHeader.bits - 1) 0,
                 validPowHeader.hash.getD (decodeExponent validPowHeader.bits - 2) 0,
                 validPowHeader.hash.getD (decodeExponent validPowHeader.bits - 3) 0]
          ((beBytes4 validPowHeader.bits).drop 1) = true)) ∧
    ([validPowHeader.hash.getD (decodeExponent validPowHeader.bits - 1) 0,
      validPowHeader.hash.getD (decodeExponent validPowHeader.bits - 2) 0,
      validPowHeader.hash.getD (decodeExponent validPowHeader.bits - 3) 0] =
        (beBytes4 validPowHeader.bits).drop 1 →
      validPowHeader.validate = some false)) :=
  ⟨by decide, by decide, c1_validate_byte_rule validPowHeader (by decide) (by decide)⟩

/-! ## Claims about the Headers message codec -/

/-- A validated parse succeeds exactly on a bare parse followed by a
passing proof-of-work check. -/
theorem parse_true_ok_elim {buf : List Nat} {hdr : BlockHeader}
    (h : BlockHeader.parse buf true = some (.ok hdr)) :
    BlockHeader.parse buf false = some (.ok hdr) ∧ hdr.validate = some true := by
  rw [parse_true_eq] at h
  cases hpf : BlockHeader.parse buf false with
  | none => rw [hpf] at h; exact Option.noConfusion h
  | some r =>
    cases r with
    | error e => simp only [hpf] at h; exact Except.noConfusion (Option.some.inj h)
    | ok h2 =>
      simp only [hpf] at h
      cases hv : h2.validate with
      | none => rw [hv] at h; exact Option.noConfusion h
      | some b =>
        cases b with
        | false => rw [hv] at h; exact Except.noConfusion (Option.some.inj h)
        | true =>
          rw [hv] at h
          have h3 : h2 = hdr := Except.ok.inj (Option.some.inj h)
          subst h3
          exact ⟨rfl, hv⟩

/-- The converse direction: a bare parse plus passing validation makes
the validated parse succeed. -/
theorem parse_true_ok_intro {buf : List Nat} {hdr : BlockHeader}
    (hpf : BlockHeader.parse buf false = some (.ok hdr))
    (hv : hdr.validate = some true) :
    BlockHeader.parse buf true = some (.ok hdr) := by
  rw [parse_true_eq]
  simp only [hpf, hv]

/-- A successful bare parse needs at least 80 bytes. -/
theorem parse_false_ok_length {buf : List Nat} {hdr : BlockHeader}
    (h : BlockHeader.parse buf false = some (.ok hdr)) : 80 ≤ buf.length := by
  by_cases hl : buf.length < 80
  · unfold BlockHeader.parse at h
    rw [if_pos hl] at h
    exact absurd (Option.some.inj h) (by simp)
  · omega

/-- The record loop returns the empty page on fewer than 81 bytes. -/
theorem parseRecords_short {rest : List Nat} (h : rest.length < 81) :
    parseRecords rest = some (.ok []) := by
  rw [parseRecords]
  rw [if_pos h]

/-- One unfolding step of the record loop on at least 81 bytes. -/
theorem parseRecords_step (rest : List Nat) (h81 : ¬ rest.length < 81) :
    parseRecords rest =
      match BlockHeader.parse (rest.take 81) true with
      | none => none
      | some (.error e) => some (.error e)
      | some (.ok h) =>
        match parseRecords (rest.drop 81) with
        | none => none
        | some (.error e) => some (.error e)
        | some (.ok tl) => some (.ok (h :: tl)) := by
  rw [parseRecords]
  rw [if_neg h81]

/-- Headers::parse, after the varint is read. -/
theorem headersParse_eq (buffer : List Nat) (v : Nat) (rest : List Nat)
    (hvar : extractVarint buffer = .ok (v, rest)) :
    headersParse buffer =
      if rest.length % 81 ≠ 0 then some (.error .SerializedBufferIsInvalid)
      else parseRecords rest := by
  unfold headersParse
  simp only [hvar]

/-- The record loop stops with `HeaderInvalidPoW` at the first record
whose decoded header fails the proof-of-work check, however many valid
records precede it. -/
theorem parseRecords_pow_fail (k : Nat) : ∀ (rest : List Nat) (hk : BlockHeader),
    rest.length % 81 = 0 →
    (∀ j, j < k → ∃ hj, BlockHeader.parse ((rest.drop (81 * j)).take 81) true = some (.ok hj)) →
    BlockHeader.parse ((rest.drop (81 * k)).take 81) false = some (.ok hk) →
    hk.validate = some false →
    parseRecords rest = some (.error .HeaderInvalidPoW) := by
  induction k with
  | zero =>
    intro rest hk hdiv hgood hbad hval
    simp only [Nat.mul_zero, List.drop_zero] at hbad
    have hlen80 := parse_false_ok_length hbad
    simp only [List.length_take] at hlen80
    have hge : 81 ≤ rest.length := by omega
    rw [parseRecords_step rest (by omega)]
    rw [parse_true_eq]
    simp only [hbad, hval]
  | succ k ih =>
    intro rest hk hdiv hgood hbad hval
    obtain ⟨h0, hh0⟩ := hgood 0 (by omega)
    simp only [Nat.mul_zero, List.drop_zero] at hh0
    obtain ⟨hpf0, _⟩ := parse_true_ok_elim hh0
    have hlen80 := parse_false_ok_length hpf0
    simp only [List.length_take] at hlen80
    have hge : 81 ≤ rest.length := by omega
    rw [parseRecords_step rest (by omega)]
    simp only [hh0]
    have hrec := ih (rest.drop 81) hk
      (by simp only [List.length_drop]; omega)
      (by
        intro j hj
        obtain ⟨hj2, hhj⟩ := hgood (j + 1) (by omega)
        refine ⟨hj2, ?_⟩
        rw [List.drop_drop]
        have harith : 81 * (j + 1) = 81 + 81 * j := by ring
        rw [harith] at hhj
        exact hhj)
      (by
        rw [List.drop_drop]
        have harith : 81 * (k + 1) = 81 + 81 * k := by ring
        rw [harith] at hbad
        exact hbad)
      hval
    simp only [hrec]

/-- The record loop succeeds when every record passes validation,
returning one header per 81-byte record. -/
theorem parseRecords_all_ok (n : Nat) : ∀ rest : List Nat, rest.length = 81 * n →
    (∀ j, j < n → ∃ hj, BlockHeader.parse ((rest.drop (81 * j)).take 81) true = some (.ok hj)) →
    ∃ hdrs, parseRecords rest = some (.ok hdrs) ∧ hdrs.length = n := by
  induction n with
  | zero =>
    intro rest hlen _
    rw [parseRecords_short (by omega)]
    exact ⟨[], rfl, rfl⟩
  | succ n ih =>
    intro rest hlen hgood
    obtain ⟨h0, hh0⟩ := hgood 0 (by omega)
    simp only [Nat.mul_zero, List.drop_zero] at hh0
    rw [parseRecords_step rest (by omega)]
    simp only [hh0]
    obtain ⟨tl, htl, hlen2⟩ := ih (rest.drop 81)
      (by simp only [List.length_drop]; omega)
      (by
        intro j hj
        obtain ⟨hj2, hhj⟩ := hgood (j + 1) (by omega)
        refine ⟨hj2, ?_⟩
        rw [List.drop_drop]
        have harith : 81 * (j + 1) = 81 + 81 * j := by ring
        rw [harith] at hhj
        exact hhj)
    simp only [htl]
    exact ⟨h0 :: tl, rfl, by simp [hlen2]⟩

/-- Reading a dropped list at an index reads the original further on. -/
theorem getD_drop (l : List Nat) (k i : Nat) :
    (l.drop k).getD i 0 = l.getD (k + i) 0 := by
  induction k generalizing l with
  | zero => simp
  | succ k ih =>
    cases l with
    | nil => simp
    | cons a t =>
      simp only [List.drop_succ_cons, Nat.succ_add, List.getD_cons_succ]
      exact ih t

/-- Every 81st byte of the record area (the transaction-count byte after
each 80-byte header) is zero. -/
def trailingZeros (rest : List Nat) : Prop :=
  ∀ i, i < rest.length → i % 81 = 80 → rest.getD i 0 = 0

instance (rest : List Nat) : Decidable (trailingZeros rest) := by
  unfold trailingZeros
  exact Nat.decidableBallLT _ _

/-- Re-attaching a zero after 80 bytes recovers the 81-byte record when
the 81st byte is zero. -/
theorem take81_eq (rest : List Nat) (h : 81 ≤ rest.length) (hz : rest.getD 80 0 = 0) :
    rest.take 80 ++ [0] = rest.take 81 := by
  rw [show (81 : Nat) = 80 + 1 from rfl, List.take_add]
  congr 1
  have h1 : 1 ≤ (rest.drop 80).length := by simp; omega
  cases hd : rest.drop 80 with
  | nil => rw [hd] at h1; simp at h1
  | cons a t =>
    have ha : a = rest.getD 80 0 := by
      rw [show (80 : Nat) = 80 + 0 from rfl, ← getD_drop rest 80 0, hd]
      rfl
    have ha0 : a = 0 := by rw [ha]; exact hz
    simp [ha0]

/-- Decoding a canonically encoded varint returns the value and the
following bytes. -/
theorem extractVarint_toVarintBytes (n : Nat) (rest : List Nat) (hn : n < 2 ^ 64) :
    extractVarint (toVarintBytes n ++ rest) = .ok (n, rest) := by
  by_cases h1 : n < 253
  · have hbuf : toVarintBytes n ++ rest = n :: rest := by simp [toVarintBytes, h1]
    rw [hbuf]
    unfold extractVarint
    simp [h1]
  · by_cases h2 : n < 65536
    · have hbuf : toVarintBytes n ++ rest = 253 :: n % 256 :: n / 256 % 256 :: rest := by
        simp [toVarintBytes, h1, h2]
      rw [hbuf]
      unfold extractVarint
      have hv : leVal [n % 256, n / 256 % 256] = n := by
        show n % 256 + 256 * (n / 256 % 256 + 256 * 0) = n
        omega
      simp [hv]
    · by_cases h3 : n < 4294967296
      · have hbuf : toVarintBytes n ++ rest =
            254 :: n % 256 :: n / 256 % 256 :: n / 65536 % 256 :: n / 16777216 % 256 :: rest := by
          simp [toVarintBytes, leBytes4, h1, h2, h3]
        rw [hbuf]
        unfold extractVarint
        have hv : leVal [n % 256, n / 256 % 256, n / 65536 % 256, n / 16777216 % 256] = n := by
          show n % 256 + 256 * (n / 256 % 256 + 256 * (n / 65536 % 256 +
            256 * (n / 16777216 % 256 + 256 * 0))) = n
          omega
        simp [hv]
      · have hbuf : toVarintBytes n ++ rest =
            255 :: n % 256 :: n / 2 ^ 8 % 256 :: n / 2 ^ 16 % 256 :: n / 2 ^ 24 % 256 ::
              n / 2 ^ 32 % 256 :: n / 2 ^ 40 % 256 :: n / 2 ^ 48 % 256 ::
              n / 2 ^ 56 % 256 :: rest := by
          simp [toVarintBytes, leBytes8, h1, h2, h3]
        rw [hbuf]
        unfold extractVarint
        have hv : leVal [n % 256, n / 256 % 256, n / 65536 % 256, n / 16777216 % 256,
            n / 4294967296 % 256, n / 1099511627776 % 256, n / 281474976710656 % 256,
            n / 72057594037927936 % 256] = n := by
          show n % 256 + 256 * (n / 256 % 256 + 256 * (n / 65536 % 256 +
            256 * (n / 16777216 % 256 + 256 * (n / 4294967296 % 256 +
            256 * (n / 1099511627776 % 256 + 256 * (n / 281474976710656 % 256 +
            256 * (n / 72057594037927936 % 256 + 256 * 0))))))) = n
          omega
        simp [hv]

/-- The serialization of the headers a successful record loop returns is
the record area itself, provided every record ends in a zero byte. -/
theorem serializeRecords_of_parse (n : Nat) : ∀ (rest : List Nat) (hdrs : List BlockHeader),
    rest.length = 81 * n → (∀ b ∈ rest, b < 256) → trailingZeros rest →
    parseRecords rest = some (.ok hdrs) →
    serializeRecords hdrs = rest := by
  induction n with
  | zero =>
    intro rest hdrs hlen hbytes htz hparse
    rw [parseRecords_short (by omega)] at hparse
    have h1 : ([] : List BlockHeader) = hdrs := Except.ok.inj (Option.some.inj hparse)
    subst h1
    have h2 : rest = [] := List.eq_nil_of_length_eq_zero (by omega)
    rw [h2]
    rfl
  | succ n ih =>
    intro rest hdrs hlen hbytes htz hparse
    rw [parseRecords_step rest (by omega)] at hparse
    cases hpt : BlockHeader.parse (rest.take 81) true with
    | none => rw [hpt] at hparse; exact Option.noConfusion hparse
    | some r =>
      cases r with
      | error e =>
        simp only [hpt] at hparse
        exact Except.noConfusion (Option.some.inj hparse)
      | ok h0 =>
        simp only [hpt] at hparse
        cases hpr : parseRecords (rest.drop 81) with
        | none => rw [hpr] at hparse; exact Option.noConfusion hparse
        | some r2 =>
          cases r2 with
          | error e =>
            simp only [hpr] at hparse
            exact Except.noConfusion (Option.some.inj hparse)
          | ok tl =>
            simp only [hpr] at hparse
            have hcons : (h0 :: tl : List BlockHeader) = hdrs :=
              Except.ok.inj (Option.some.inj hparse)
            subst hcons
            obtain ⟨hpf, _⟩ := parse_true_ok_elim hpt
            have hdec : h0 = decodedHeader (rest.take 81) :=
              Except.ok.inj (Option.some.inj
                (hpf.symm.trans (parse_false_eq _ (by simp; omega))))
            have htl := ih (rest.drop 81) tl
              (by simp only [List.length_drop]; omega)
              (fun b hb => hbytes b (List.mem_of_mem_drop hb))
              (by
                intro i hi hm
                rw [getD_drop]
                exact htz (81 + i) (by simp at hi; omega) (by omega))
              hpr
            show h0.serialize ++ [0] ++ serializeRecords tl = rest
            rw [htl, hdec, serialize_decodedHeader (rest.take 81)
                (by simp; omega) (fun b hb => hbytes b (List.mem_of_mem_take hb)),
              List.take_take]
            have hmin : min 80 81 = 80 := by omega
            rw [hmin, take81_eq rest (by omega)
              (htz 80 (by omega) (by omega)),
              List.take_append_drop]

/-- C5: Headers::parse reads a varint and then (a) fails with
`SerializedBufferIsInvalid` whenever the remaining length is not a
multiple of 81; (b) hands each 81-byte record to `BlockHeader::parse`,
which ignores every byte past offset 80; (c) fails with
`HeaderInvalidPoW` at the first record whose decoded header fails the
proof-of-work check; and (d) succeeds with one header per record when
every record passes. -/
theorem c5_headers_parse_shape :
    (∀ (buffer : List Nat) (v : Nat) (rest : List Nat),
      extractVarint buffer = .ok (v, rest) → rest.length % 81 ≠ 0 →
      headersParse buffer = some (.error .SerializedBufferIsInvalid)) ∧
    (∀ (chunk : List Nat) (flag : Bool), 80 ≤ chunk.length →
      BlockHeader.parse chunk flag = BlockHeader.parse (chunk.take 80) flag) ∧
    (∀ (buffer : List Nat) (v : Nat) (rest : List Nat) (k : Nat) (hk : BlockHeader),
      extractVarint buffer = .ok (v, rest) → rest.length % 81 = 0 →
      (∀ j, j < k →
        ∃ hj, BlockHeader.parse ((rest.drop (81 * j)).take 81) true = some (.ok hj)) →
      BlockHeader.parse ((rest.drop (81 * k)).take 81) false = some (.ok hk) →
      hk.validate = some false →
      headersParse buffer = some (.error .HeaderInvalidPoW)) ∧
    (∀ (buffer : List Nat) (v : Nat) (rest : List Nat),
      extractVarint buffer = .ok (v, rest) → rest.length % 81 = 0 →
      (∀ j, j < rest.length / 81 →
        ∃ hj, BlockHeader.parse ((rest.drop (81 * j)).take 81) true = some (.ok hj)) →
      ∃ hdrs, headersParse buffer = some (.ok hdrs) ∧ hdrs.length = rest.length / 81) := by
  refine ⟨?_, ?_, ?_, ?_⟩
  · intro buffer v rest hvar hmod
    rw [headersParse_eq buffer v rest hvar, if_pos hmod]
  · intro chunk flag h80
    exact parse_take80 chunk flag h80
  · intro buffer v rest k hk hvar hmod hgood hbad hval
    rw [headersParse_eq buffer v rest hvar, if_neg (by omega)]
    exact parseRecords_pow_fail k rest hk hmod hgood hbad hval
  · intro buffer v rest hvar hmod hgood
    rw [headersParse_eq buffer v rest hvar, if_neg (by omega)]
    exact parseRecords_all_ok (rest.length / 81) rest (by omega) hgood

/-- The record area built from the invalid-PoW test header of the
source. -/
def powFailBuf : List Nat := 1 :: (invalidPowHeader.serialize ++ [0])

set_option maxRecDepth 1000000 in
/-- C5 witness: the invalid-PoW test header serialized as a one-record
headers payload makes the parse fail with `HeaderInvalidPoW`. -/
theorem c5_headers_parse_shape_witness :
    extractVarint powFailBuf = .ok (1, invalidPowHeader.serialize ++ [0]) ∧
    (invalidPowHeader.serialize ++ [0]).length % 81 = 0 ∧
    BlockHeader.parse (((invalidPowHeader.serialize ++ [0]).drop (81 * 0)).take 81) false =
      some (.ok invalidPowHeader) ∧
    invalidPowHeader.validate = some false ∧
    headersParse powFailBuf = some (.error .HeaderInvalidPoW) :=
  ⟨by decide, by decide, by decide, by decide,
    c5_headers_parse_shape.2.2.1 powFailBuf 1 (invalidPowHeader.serialize ++ [0]) 0
      invalidPowHeader (by decide) (by decide)
      (fun j hj => absurd hj (by omega)) (by decide) (by decide)⟩

/-- The 82-byte headers payload of the `parse_and_serialize_headers`
source test: varint count 1, one 80-byte record passing proof-of-work,
one trailing zero byte. -/
def headersTestBuf : List Nat :=
  [1, 0, 0, 128, 32, 169, 255, 173, 21, 40, 44, 123, 115, 129, 193, 143, 57, 71, 116, 199,
   75, 244, 113, 169, 45, 227, 42, 180, 111, 0, 0, 0, 0, 0, 0, 0, 0, 109, 105, 250, 106,
   92, 126, 17, 171, 97, 243, 124, 194, 172, 252, 249, 166, 202, 8, 231, 136, 21, 107,
   106, 136, 64, 241, 195, 82, 179, 236, 159, 63, 155, 22, 96, 100, 105, 90, 32, 25, 11,
   42, 241, 166, 0]

/-- The same record area with the leading varint replaced by 2, a count
that does not match the single record that follows. -/
def countMismatchBuf : List Nat := 2 :: headersTestBuf.drop 1

set_option maxRecDepth 1000000 in
/-- The record loop accepts the test record area and returns its decoded
header. -/
theorem testRecord_parses :
    parseRecords (headersTestBuf.drop 1) =
      some (.ok [decodedHeader (headersTestBuf.drop 1)]) := by
  rw [parseRecords_step _ (by decide)]
  have hp : BlockHeader.parse ((headersTestBuf.drop 1).take 81) true =
      some (.ok (decodedHeader (headersTestBuf.drop 1))) :=
    parse_true_ok_intro (by decide) (by decide)
  have hnil : parseRecords ((headersTestBuf.drop 1).drop 81) = some (.ok []) :=
    parseRecords_short (by decide)
  simp only [hp, hnil]

/-- C2 counterexample: the parser never checks the varint count against
the number of records, so a payload whose count byte says 2 but which
carries one record parses successfully, and serializing the result (which
re-encodes the true count 1) does not reproduce the input. -/
theorem c2_count_not_checked :
    headersParse countMismatchBuf = some (.ok [decodedHeader (headersTestBuf.drop 1)]) ∧
    headersSerialize [decodedHeader (headersTestBuf.drop 1)] ≠ countMismatchBuf := by
  constructor
  · have hvar : extractVarint countMismatchBuf = .ok (2, headersTestBuf.drop 1) := by decide
    rw [headersParse_eq _ 2 _ hvar, if_neg (by decide)]
    exact testRecord_parses
  · intro hcon
    have h0 : (headersSerialize [decodedHeader (headersTestBuf.drop 1)]).headD 0 =
        countMismatchBuf.headD 0 := by rw [hcon]
    revert h0
    decide

/-- C2 amended: the round trip holds for every headers payload whose
leading varint is the canonical encoding of the actual record count and
in which each 81-byte record ends in a zero byte: parsing such a payload
and serializing the result reproduces it byte for byte. -/
theorem c2_headers_roundtrip (n : Nat) (rest : List Nat) (hdrs : List BlockHeader)
    (hn : n < 2 ^ 64)
    (hbytes : ∀ b ∈ rest, b < 256)
    (hparse : headersParse (toVarintBytes n ++ rest) = some (.ok hdrs))
    (hcount : n = hdrs.length)
    (htz : trailingZeros rest) :
    headersSerialize hdrs = toVarintBytes n ++ rest := by
  have hvar := extractVarint_toVarintBytes n rest hn
  rw [headersParse_eq _ n rest hvar] at hparse
  by_cases hmod : rest.length % 81 ≠ 0
  · rw [if_pos hmod] at hparse
    exact absurd (Option.some.inj hparse) (by simp)
  · rw [if_neg hmod] at hparse
    push_neg at hmod
    have hser := serializeRecords_of_parse (rest.length / 81) rest hdrs
      (by omega) hbytes htz hparse
    unfold headersSerialize
    rw [hser, ← hcount]

set_option maxRecDepth 1000000 in
/-- C2 amended witness: the headers payload of the source test round
trips. -/
theorem c2_headers_roundtrip_witness :
    (1 : Nat) < 2 ^ 64 ∧
    (∀ b ∈ headersTestBuf.drop 1, b < 256) ∧
    headersParse (toVarintBytes 1 ++ headersTestBuf.drop 1) =
      some (.ok [decodedHeader (headersTestBuf.drop 1)]) ∧
    (1 : Nat) = [decodedHeader (headersTestBuf.drop 1)].length ∧
    trailingZeros (headersTestBuf.drop 1) ∧
    headersSerialize [decodedHeader (headersTestBuf.drop 1)] =
      toVarintBytes 1 ++ headersTestBuf.drop 1 := by
  have hparse : headersParse (toVarintBytes 1 ++ headersTestBuf.drop 1) =
      some (.ok [decodedHeader (headersTestBuf.drop 1)]) := by
    have hvar : extractVarint (toVarintBytes 1 ++ headersTestBuf.drop 1) =
        .ok (1, headersTestBuf.drop 1) := by decide
    rw [headersParse_eq _ 1 _ hvar, if_neg (by decide)]
    exact testRecord_parses
  exact ⟨by decide, by decide, hparse, by decide, by decide,
    c2_headers_roundtrip 1 (headersTestBuf.drop 1)
      [decodedHeader (headersTestBuf.drop 1)]
      (by decide) (by decide) hparse (by decide) (by decide)⟩

end BtcWallet
